import Mathlib

/-!
# go-multierror: composite error values

A shallow embedding of the package `multierror` (files `multierror.go`, `append.go`,
`prefix.go`, `sort.go`, `group.go`) together with theorems about merging (`Append`), the
accessors of the composite error (`ErrorOrNil`, `WrappedErrors`, `Unwrap`, the `chain`
view), annotation (`Prefix`), the ordering adapter (`Len`, `Swap`, `Less`) and the
collector (`Group`) read as a sequential state machine.

Modelling conventions.

* A value of the Go interface type `error` is a `GoError`.  The untyped `nil` interface and
  the interface holding a nil `*Error` are different values (`GoError.nil`, `GoError.nilPtr`),
  exactly as the type switches of the source distinguish them.
* A `*Error` is an `Option Error`: `none` is the nil pointer and `some s` a pointer to the
  struct `s`.  A pointer is represented by the struct it points to, so a function that updates
  its receiver in place returns the updated struct; arguments are read as values.
* `Append` writes in place into the backing array of the base, which arguments that share
  storage with the base can observe.  The section on `append.go` on memory follows the source
  on an explicit memory of backing arrays and structs (`heap.Append`); `Append_refines` shows
  that the value-level `Append` returns the same composite whenever no addition is aliased
  to the base.
* A method call that would panic at run time returns `Except.error` with the text of the
  run-time error.
-/

namespace multierror

/-! ## Data model -/

/-- Modelled from the spec: the type `ErrorFormatFunc` is declared outside the files at hand
("a pluggable function mapping the sequence of failures to a human-readable string").
A formatter is kept as a handle; what it computes is supplied by `Formatters.call`. -/
structure ErrorFormatFunc where
  handle : Nat
deriving DecidableEq, Repr

/-- A value of the interface type `error`.

* `nil`: the nil interface value (no failure);
* `plain tag msg`: a failure of a caller-defined type, with an identity `tag` and the text
  `msg` returned by its `Error()` method;
* `errorString msg`: the failure built by `errors.New` / `fmt.Errorf` (no `%w`), whose
  `Error()` is `msg`;
* `nilPtr`: a nil `*Error` stored in the interface;
* `ptr Errors ErrorFormat`: a non-nil `*Error` pointing to the struct with these fields;
* `chain errs`: a value of the slice type `chain`. -/
inductive GoError where
  | nil : GoError
  | plain (tag : Nat) (msg : String) : GoError
  | errorString (msg : String) : GoError
  | nilPtr : GoError
  | ptr (Errors : List GoError) (ErrorFormat : Option ErrorFormatFunc) : GoError
  | chain (errs : List GoError) : GoError
deriving Repr

/-- The struct `Error` of `multierror.go`. -/
structure Error where
  Errors : List GoError
  ErrorFormat : Option ErrorFormatFunc
deriving Repr

/-- Conversion of a `*Error` to the interface type `error` (what `return e` or passing a
`*Error` argument does): a nil pointer becomes the typed nil `nilPtr`, never `nil`. -/
def toError : Option Error → GoError
  | none => .nilPtr
  | some s => .ptr s.Errors s.ErrorFormat

/-- The dynamic type of the value is `*Error` (the `case *Error` arm of a type switch). -/
def GoError.isComposite : GoError → Bool
  | .nilPtr => true
  | .ptr _ _ => true
  | _ => false

/-- The value is the nil interface (`err == nil` on a value of type `error`). -/
def GoError.isNil : GoError → Bool
  | .nil => true
  | _ => false

/-- A plain failure: not the nil interface and not of dynamic type `*Error`. -/
def GoError.isPlain (e : GoError) : Bool := !e.isNil && !e.isComposite

/-- Modelled from the spec: `ErrorFormatFunc` and the default renderer `ListFormatFunc` are
declared outside the files at hand.  `call fn es` is the string the custom formatter `fn`
returns on `es`, `ListFormatFunc es` the string the default renderer returns. -/
structure Formatters where
  call : ErrorFormatFunc → List GoError → String
  ListFormatFunc : List GoError → String

/-- Text of the run-time error raised by a method call through a nil interface or a field
access through a nil pointer. -/
def nilDeref : String := "runtime error: invalid memory address or nil pointer dereference"

/-- Text of the run-time error raised by `e[0]` on an empty slice. -/
def indexZero : String := "runtime error: index out of range [0] with length 0"

/-! ## multierror.go -/

/-- `func (e *Error) Error() string` (named `ErrorMsg` here, as `Error.Error` would shadow the
struct): reads `e.ErrorFormat` (a nil receiver panics), falls back to `ListFormatFunc` when
it is nil, and applies the formatter to `e.Errors`. -/
def Error.ErrorMsg (F : Formatters) (e : Option Error) : Except String String :=
  match e with
  | none => .error nilDeref
  | some s =>
    let fn : List GoError → String :=
      match s.ErrorFormat with
      | none => F.ListFormatFunc
      | some fn => F.call fn
    .ok (fn s.Errors)

/-- The method `Error()` of a value of type `error`, by dynamic type: a call through the nil
interface panics, a plain failure returns its text, a `*Error` runs `Error.ErrorMsg`, and
`func (e chain) Error() string` is `e[0].Error()`. -/
def GoError.Error (F : Formatters) : GoError → Except String String
  | .nil => .error nilDeref
  | .plain _ msg => .ok msg
  | .errorString msg => .ok msg
  | .nilPtr => Error.ErrorMsg F none
  | .ptr errs fn => Error.ErrorMsg F (some { Errors := errs, ErrorFormat := fn })
  | .chain [] => .error indexZero
  | .chain (e :: _) => GoError.Error F e

/-- `func (e *Error) ErrorOrNil() error`. -/
def Error.ErrorOrNil (e : Option Error) : GoError :=
  match e with
  | none => .nil
  | some s =>
    if s.Errors.length = 0 then .nil
    else toError (some s)

/-- `func (e *Error) WrappedErrors() []error`. -/
def Error.WrappedErrors (e : Option Error) : List GoError :=
  match e with
  | none => []
  | some s => s.Errors

/-- `func (e *Error) Unwrap() error`.  The copy made before the conversion to `chain` is
the same list of values. -/
def Error.Unwrap (e : Option Error) : GoError :=
  match e with
  | none => .nil
  | some s =>
    if s.Errors.length = 0 then .nil
    else if h : s.Errors.length = 1 then s.Errors.get ⟨0, by omega⟩
    else .chain s.Errors

/-- `func (e chain) Unwrap() error`.  On an empty chain the slice expression `e[1:]`
panics. -/
def chain.Unwrap (e : List GoError) : Except String GoError :=
  if e.length = 1 then .ok .nil
  else if 1 ≤ e.length then .ok (.chain (e.drop 1))
  else .error "runtime error: slice bounds out of range [1:0]"

/-- Model of the standard library function `errors.Unwrap`: the result of the `Unwrap`
method of the dynamic type, and `nil` for a value without such a method.  `*Error` and
`chain` are the types of this package that have the method; plain failures are leaves. -/
def errors.Unwrap : GoError → Except String GoError
  | .nil => .ok .nil
  | .plain _ _ => .ok .nil
  | .errorString _ => .ok .nil
  | .nilPtr => .ok (Error.Unwrap none)
  | .ptr es fn => .ok (Error.Unwrap (some { Errors := es, ErrorFormat := fn }))
  | .chain errs => chain.Unwrap errs

/-- The walk `x_0 = x`, `x_(k+1) = x_k.Unwrap()`; a panic on the way is propagated. -/
def unwrapIter (x : GoError) : Nat → Except String GoError
  | 0 => .ok x
  | k + 1 =>
    match unwrapIter x k with
    | .ok y => errors.Unwrap y
    | .error p => .error p

/-- Model of the standard library: the functions `errors.Is` and `errors.As`, which the chain
methods call on the first element.  They are taken as parameters; `τ` is the type of the
targets of `As`, and a call of `As` with an unfit target panics. -/
structure Introspection (τ : Type) where
  Is : GoError → GoError → Bool
  As : GoError → τ → Except String Bool

/-- `func (e chain) Is(target error) bool`: `errors.Is(e[0], target)`. -/
def chain.Is {τ : Type} (I : Introspection τ) (e : List GoError) (target : GoError) :
    Except String Bool :=
  match e with
  | [] => .error indexZero
  | e0 :: _ => .ok (I.Is e0 target)

/-- `func (e chain) As(target interface{}) bool`: `errors.As(e[0], target)`. -/
def chain.As {τ : Type} (I : Introspection τ) (e : List GoError) (target : τ) :
    Except String Bool :=
  match e with
  | [] => .error indexZero
  | e0 :: _ => I.As e0 target

/-- The test a single-cause walker makes at one node: the `Is` method of the node when it is
a `chain`, and the test of `errors.Is` for a node of a type without such a method. -/
def nodeIs {τ : Type} (I : Introspection τ) (x target : GoError) : Except String Bool :=
  match x with
  | .chain e => chain.Is I e target
  | x => .ok (I.Is x target)

/-- A generic single-cause walker: at each node it tests the node's `Is` predicate and
reports a match, otherwise it follows `Unwrap`, until the absent value is reached.  The
first argument bounds the number of nodes visited. -/
def walker {τ : Type} (I : Introspection τ) (target : GoError) :
    Nat → GoError → Except String Bool
  | 0, _ => .error "walker: out of fuel"
  | fuel + 1, x =>
    if x.isNil then .ok false
    else
      match nodeIs I x target with
      | .error p => .error p
      | .ok true => .ok true
      | .ok false =>
        match errors.Unwrap x with
        | .error p => .error p
        | .ok y => walker I target fuel y

/-- The chains this package builds from the composite `s`: the chain that `Error.Unwrap`
makes by the conversion `chain(errs)` (the receiver does not have exactly one element; with
one element `Unwrap` returns that element itself), and every chain that `chain.Unwrap`
returns on one of them. -/
inductive ChainReachable (s : Error) : List GoError → Prop where
  | start (l : List GoError) :
      s.Errors.length ≠ 1 → Error.Unwrap (some s) = .chain l → ChainReachable s l
  | step (l l' : List GoError) :
      ChainReachable s l → chain.Unwrap l = .ok (.chain l') → ChainReachable s l'

/-! ## append.go -/

/-- One iteration of the loop `for _, e := range errs` in the `case *Error` arm of `Append`,
the inner type switch on `e`: under `case *Error` a non-nil `e` contributes `e.Errors...`
and a nil one nothing; under `default` a non-nil `e` is appended itself. -/
def appendStep (newErr : Error) (e : GoError) : Error :=
  match e with
  | .nilPtr => newErr
  | .ptr errs _ => { newErr with Errors := newErr.Errors ++ errs }
  | e =>
    if e.isNil then newErr
    else { newErr with Errors := newErr.Errors ++ [e] }

/-- The `case *Error` arm of `Append`: a nil receiver is replaced by `new(Error)`, then the
loop runs over `errs`, and `newErr` is returned. -/
def appendPtr (newErr : Option Error) (errs : List GoError) : Option Error :=
  let newErr : Error :=
    match newErr with
    | none => { Errors := [], ErrorFormat := none }
    | some s => s
  some (errs.foldl appendStep newErr)

/-- `func Append(err error, errs ...error) *Error`, with the arguments read as values (none
of the additions aliased to the base; `heap.Append` is the same function on memory).  In the
`default` arm the recursive call `Append(&Error{}, newErrs...)` has a non-nil `*Error` as its
first argument, so it runs the `case *Error` arm. -/
def Append (err : GoError) (errs : List GoError) : Option Error :=
  match err with
  | .nilPtr => appendPtr none errs
  | .ptr es fn => appendPtr (some { Errors := es, ErrorFormat := fn }) errs
  | err =>
    let newErrs : List GoError := []
    let newErrs := if err.isNil then newErrs else newErrs ++ [err]
    let newErrs := newErrs ++ errs
    appendPtr (some { Errors := [], ErrorFormat := none }) newErrs

/-! ## prefix.go -/

/-- Model of the standard library: the text package `fmt` writes for an operand of interface
type `error` under the verb `%s`.  The nil interface is a bad operand, a nil pointer whose
`Error` method panics is written `<nil>`, any other panic of the `Error` method is reported
in place, and otherwise the text is the result of `Error()`. -/
def fmtS (F : Formatters) (e : GoError) : String :=
  match e with
  | .nil => "%!s(<nil>)"
  | .nilPtr => "<nil>"
  | e =>
    match e.Error F with
    | .ok msg => msg
    | .error p => "%!s(PANIC=Error method: " ++ p ++ ")"

/-- The call `fmt.Errorf("%s %s", pfx, e)`: a new string failure whose message is the label,
a blank, and the rendering of `e`. -/
def Errorf (F : Formatters) (pfx : String) (e : GoError) : GoError :=
  .errorString (pfx ++ " " ++ fmtS F e)

/-- One iteration of `for i, e := range err.Errors`: the element at index `i` is read and
overwritten by `fmt.Errorf("%s %s", pfx, e)`. -/
def prefixStep (F : Formatters) (pfx : String) (errs : List GoError) (i : Nat) :
    List GoError :=
  match errs[i]? with
  | some e => errs.set i (Errorf F pfx e)
  | none => errs

/-- The loop `for i, e := range err.Errors` of `Prefix`, over the indices `0 .. len-1`. -/
def prefixLoop (F : Formatters) (pfx : String) (errs : List GoError) : List GoError :=
  (List.range errs.length).foldl (prefixStep F pfx) errs

/-- `func Prefix(err error, prefix string) error`. -/
def Prefix (F : Formatters) (err : GoError) (pfx : String) : GoError :=
  if err.isNil then .nil
  else
    match err with
    | .nilPtr => .ptr (prefixLoop F pfx []) none
    | .ptr es fn => .ptr (prefixLoop F pfx es) fn
    | err => Errorf F pfx err

/-- The type assertion `err.(*Error)` (as in `result.(*Error)` of the tests): the pointer
held by the interface when its dynamic type is `*Error`, and `none` when the assertion does
not hold. -/
def GoError.asPtr : GoError → Option (Option multierror.Error)
  | .nilPtr => some none
  | .ptr es fn => some (some { Errors := es, ErrorFormat := fn })
  | _ => none

/-- Modelled from the spec: the default renderer `ListFormatFunc` is declared outside the
files at hand.  It writes the count line ("<N> error(s) occurred:", singular for one
element) followed by one tab-indented line per element and a blank line, in agreement with
the text `TestPrefix_NilErrorArg` expects for zero elements.  `point e` is the line written
for the element `e`. -/
def ListFormatFunc (point : GoError → String) (es : List GoError) : String :=
  match es with
  | [e] => "1 error occurred:\n\t" ++ point e ++ "\n\n"
  | es =>
    toString es.length ++ " errors occurred:\n\t"
      ++ "\n\t".intercalate (es.map point) ++ "\n\n"

/-! ## sort.go -/

/-- Text of the run-time error raised by an index expression whose index is out of range. -/
def indexOutOfRange (i : Int) (len : Nat) : String :=
  if i < 0 then "runtime error: index out of range [" ++ toString i ++ "]"
  else "runtime error: index out of range [" ++ toString i ++ "] with length " ++ toString len

/-- The index expression `errs[i]` for an index of type `int`: it panics for a negative
index and for an index that is not below the length. -/
def indexAt (errs : List GoError) (i : Int) : Except String GoError :=
  if i < 0 then .error (indexOutOfRange i errs.length)
  else
    match errs[i.toNat]? with
    | some e => .ok e
    | none => .error (indexOutOfRange i errs.length)

/-- `func (e *Error) Len() int`. -/
def Error.Len (e : Option Error) : Int :=
  match e with
  | none => 0
  | some s => s.Errors.length

/-- `func (e *Error) Swap(i, j int)`: the tuple assignment
`e.Errors[i], e.Errors[j] = e.Errors[j], e.Errors[i]`.  A nil receiver panics; the index `i`
is checked first, then the index `j`; then position `i` receives the old element at `j` and
position `j` the old element at `i`.  The updated struct is returned. -/
def Error.Swap (e : Option Error) (i j : Int) : Except String Error :=
  match e with
  | none => .error nilDeref
  | some s =>
    match indexAt s.Errors i with
    | .error p => .error p
    | .ok ei =>
      match indexAt s.Errors j with
      | .error p => .error p
      | .ok ej => .ok { s with Errors := (s.Errors.set i.toNat ej).set j.toNat ei }

/-- `func (e *Error) Less(i, j int) bool`: `e.Errors[i].Error() < e.Errors[j].Error()`, the
operands taken from left to right.  Go compares strings byte by byte; on the well-formed
UTF-8 texts that a `String` holds this is the lexicographic order of the characters. -/
def Error.Less (F : Formatters) (e : Option Error) (i j : Int) : Except String Bool :=
  match e with
  | none => .error nilDeref
  | some s =>
    match indexAt s.Errors i with
    | .error p => .error p
    | .ok ei =>
      match ei.Error F with
      | .error p => .error p
      | .ok mi =>
        match indexAt s.Errors j with
        | .error p => .error p
        | .ok ej =>
          match ej.Error F with
          | .error p => .error p
          | .ok mj => .ok (decide (mi < mj))

/-! ## group.go -/

/-- The struct `Group`, reduced to the field the tasks write, `err *Error`; the zero value
has a nil `err`.  The mutex and the wait group order the accesses and carry no data. -/
structure Group where
  err : Option Error
deriving Repr

/-- The effect on the `Group` of the goroutine started by `Go(f)` once `f` has returned
`err`: `if err := f(); err != nil` then, inside the critical section,
`g.err = Append(g.err, err)`. -/
def Group.complete (g : Group) (err : GoError) : Group :=
  if err.isNil then g
  else { g with err := Append (toError g.err) [err] }

/-- `func (g *Group) Wait() *Error`, once every task has completed: `return g.err`. -/
def Group.Wait (g : Group) : Option Error := g.err

/-- The state of a zero-valued `Group` after its tasks have completed with the results
`rs`, in completion order. -/
def Group.run (rs : List GoError) : Group := rs.foldl Group.complete { err := none }

/-! ## append.go on memory

`Append` above reads its arguments as values.  The source appends in place: the base is a
pointer to a struct whose field `Errors` is a slice, and the builtin `append` writes into
the backing array of that slice while its capacity lasts.  The definitions of this section
follow `append.go` on an explicit memory of backing arrays and `Error` structs, so that
arguments which share storage can be expressed. -/

namespace heap

/-- A slice header: the backing array, the offset of the first element in that array, the
length and the capacity (counted from the offset). -/
structure Slice where
  arr : Nat
  off : Nat
  len : Nat
  cap : Nat
deriving DecidableEq, Repr

/-- A value of the interface type `error` as it is held in memory: as `GoError`, but a
non-nil `*Error` is the address of a struct and a `chain` is a slice header. -/
inductive Value where
  | nil : Value
  | plain (tag : Nat) (msg : String) : Value
  | errorString (msg : String) : Value
  | nilPtr : Value
  | ptr (addr : Nat) : Value
  | chain (s : Slice) : Value
deriving DecidableEq, Repr

/-- The value is the nil interface (`err == nil`). -/
def Value.isNil : Value → Bool
  | .nil => true
  | _ => false

/-- The dynamic type of the value is `*Error`. -/
def Value.isComposite : Value → Bool
  | .nilPtr => true
  | .ptr _ => true
  | _ => false

/-- A plain failure: not the nil interface and not of dynamic type `*Error`. -/
def Value.isPlain (e : Value) : Bool := !e.isNil && !e.isComposite

/-- The struct `Error` of `multierror.go` in memory: the field `Errors` is a slice header. -/
structure Error where
  Errors : Slice
  ErrorFormat : Option ErrorFormatFunc
deriving DecidableEq, Repr

/-- The memory: the backing arrays, by number, and the `Error` structs, by address. -/
structure Memory where
  arrays : List (List Value)
  errors : List Error
deriving DecidableEq, Repr

/-- The nil slice, the zero value of the field `Errors`: length and capacity zero. -/
def nilSlice : Slice := { arr := 0, off := 0, len := 0, cap := 0 }

/-- The cells of the backing array `a`. -/
def Memory.cells (m : Memory) (a : Nat) : List Value := m.arrays.getD a []

/-- The struct at the address `p`. -/
def Memory.getErr (m : Memory) (p : Nat) : Error :=
  m.errors.getD p { Errors := nilSlice, ErrorFormat := none }

/-- The elements of the slice `s`: the `len` cells of its backing array from `off` on. -/
def Memory.readSlice (m : Memory) (s : Slice) : List Value :=
  ((m.cells s.arr).drop s.off).take s.len

/-- The element sequence `e.Errors` of the struct at the address `p`. -/
def Memory.elems (m : Memory) (p : Nat) : List Value := m.readSlice (m.getErr p).Errors

/-- The cells of an array after `xs` has been written from position `pos` on. -/
def writeCells (cells : List Value) (pos : Nat) (xs : List Value) : List Value :=
  cells.take pos ++ xs ++ cells.drop (pos + xs.length)

/-- The memory with the cells of the array `a` replaced. -/
def Memory.setCells (m : Memory) (a : Nat) (v : List Value) : Memory :=
  { m with arrays := m.arrays.set a v }

/-- The memory with one more backing array. -/
def Memory.pushArray (m : Memory) (v : List Value) : Memory :=
  { m with arrays := m.arrays ++ [v] }

/-- The builtin `append(s, xs...)` when the capacity of `s` suffices: `xs` is written into
the backing array of `s` right after its last element, and the slice is lengthened. -/
def appendInPlace (m : Memory) (s : Slice) (xs : List Value) : Memory × Slice :=
  (m.setCells s.arr (writeCells (m.cells s.arr) (s.off + s.len) xs),
    { s with len := s.len + xs.length })

/-- The builtin `append(s, xs...)` when the capacity of `s` does not suffice: a new array is
made that holds the elements of `s`, then `xs`, then spare cells.  The capacity the runtime
chooses is a parameter, `grow` (of the old capacity and the needed length); at least the
needed length is taken. -/
def appendGrow (grow : Nat → Nat → Nat) (m : Memory) (s : Slice) (xs : List Value) :
    Memory × Slice :=
  let n := s.len + xs.length
  let newCap := max n (grow s.cap n)
  (m.pushArray (m.readSlice s ++ xs ++ List.replicate (newCap - n) .nil),
    { arr := m.arrays.length, off := 0, len := n, cap := newCap })

/-- The builtin `append(s, xs...)`, where `xs` has been read before anything is written. -/
def appendSlice (grow : Nat → Nat → Nat) (m : Memory) (s : Slice) (xs : List Value) :
    Memory × Slice :=
  if s.len + xs.length ≤ s.cap then appendInPlace m s xs
  else appendGrow grow m s xs

/-- The assignment `newErr.Errors = s` for the struct at the address `p`. -/
def Memory.setErrors (m : Memory) (p : Nat) (s : Slice) : Memory :=
  { m with errors := m.errors.set p { m.getErr p with Errors := s } }

/-- `new(Error)` and `&Error{}`: a new struct with a nil `Errors` and a nil `ErrorFormat`,
and its address. -/
def Memory.alloc (m : Memory) : Memory × Nat :=
  ({ m with errors := m.errors ++ [{ Errors := nilSlice, ErrorFormat := none }] },
    m.errors.length)

/-- One iteration of the loop `for _, e := range errs` of `Append`, for the base at the
address `p`: under `case *Error` a non-nil `e` gives
`newErr.Errors = append(newErr.Errors, e.Errors...)`, with `e.Errors` read in the memory
as it is at that moment; under `default` a non-nil `e` gives
`newErr.Errors = append(newErr.Errors, e)`. -/
def appendStep (grow : Nat → Nat → Nat) (p : Nat) (m : Memory) (e : Value) : Memory :=
  match e with
  | .nilPtr => m
  | .ptr q =>
    let r := appendSlice grow m (m.getErr p).Errors (m.readSlice (m.getErr q).Errors)
    r.1.setErrors p r.2
  | e =>
    if e.isNil then m
    else
      let r := appendSlice grow m (m.getErr p).Errors [e]
      r.1.setErrors p r.2

/-- The `case *Error` arm of `Append`: a nil receiver is replaced by `new(Error)`, the loop
runs over `errs`, and the pointer `newErr` is returned. -/
def appendPtr (grow : Nat → Nat → Nat) (m : Memory) (newErr : Option Nat)
    (errs : List Value) : Memory × Nat :=
  let r : Memory × Nat :=
    match newErr with
    | none => m.alloc
    | some p => (m, p)
  (errs.foldl (appendStep grow r.2) r.1, r.2)

/-- `func Append(err error, errs ...error) *Error` on memory: the memory after the call and
the address returned.  The additions are passed as individual arguments, so the argument
slice `errs` is an array of its own. -/
def Append (grow : Nat → Nat → Nat) (m : Memory) (err : Value) (errs : List Value) :
    Memory × Nat :=
  match err with
  | .nilPtr => appendPtr grow m none errs
  | .ptr p => appendPtr grow m (some p) errs
  | err =>
    let newErrs : List Value := []
    let newErrs := if err.isNil then newErrs else newErrs ++ [err]
    let newErrs := newErrs ++ errs
    let r := m.alloc
    appendPtr grow r.1 (some r.2) newErrs

/-- The slice header is consistent with the memory: the length is within the capacity, and
the capacity within the backing array. -/
def Slice.valid (m : Memory) (s : Slice) : Bool :=
  decide (s.len ≤ s.cap) && (decide (s.cap = 0) || decide (s.off + s.cap ≤ (m.cells s.arr).length))

/-- A pointer held by the value points to a struct of the memory whose slice header is
consistent with the memory. -/
def Value.validIn (m : Memory) (v : Value) : Bool :=
  match v with
  | .ptr q => decide (q < m.errors.length) && (m.getErr q).Errors.valid m
  | _ => true

/-- What an argument of `Append` contributes, read in the memory `m`: nothing for the absent
value and for a nil-valued composite, the element sequence for a composite, the value itself
for a plain failure. -/
def stepContrib (m : Memory) (e : Value) : List Value :=
  match e with
  | .nilPtr => []
  | .ptr q => m.elems q
  | e => if e.isNil then [] else [e]

/-- The elements of the slice `sq` do not lie in the spare capacity of the slice `sp`, the
cells of its backing array between its length and its capacity. -/
def clearOfSpare (sp sq : Slice) : Bool :=
  decide (sq.len = 0) || decide (sq.arr ≠ sp.arr) || decide (sq.off + sq.len ≤ sp.off + sp.len)
    || decide (sp.off + sp.cap ≤ sq.off)

/-- The elements of the addition `e` do not lie in the spare capacity of the base `err`;
this can fail only when both are non-nil `*Error`. -/
def clearOf (m : Memory) (err e : Value) : Bool :=
  match err, e with
  | .ptr p, .ptr q => clearOfSpare (m.getErr p).Errors (m.getErr q).Errors
  | _, _ => true

/-- The addition `e` is not aliased to the base `err`: it is not the same pointer, and its
elements do not lie in the spare capacity of the base. -/
def separateFrom (m : Memory) (err e : Value) : Bool :=
  match err, e with
  | .ptr p, .ptr q => decide (q ≠ p) && clearOfSpare (m.getErr p).Errors (m.getErr q).Errors
  | _, _ => true

/-- The arrays of `m0` are still there in `m`, changed at most in the spare capacity of the
slice `s0`. -/
def Frame (m0 m : Memory) (s0 : Slice) : Prop :=
  m0.arrays.length ≤ m.arrays.length ∧
  ∀ a, a < m0.arrays.length →
    (m.cells a).length = (m0.cells a).length ∧
    ∀ i, (a ≠ s0.arr ∨ i < s0.off + s0.len ∨ s0.off + s0.cap ≤ i) →
      (m.cells a)[i]? = (m0.cells a)[i]?

/-- The slice `s` is the slice `s0` grown in place, or lies in an array made after `m0`. -/
def Located (m0 : Memory) (s0 s : Slice) : Prop :=
  (s.arr = s0.arr ∧ s.off = s0.off ∧ s.cap = s0.cap ∧ s0.len ≤ s.len) ∨
  m0.arrays.length ≤ s.arr

/-- The invariant of the loop of `Append` for the base at the address `p`, started in the
memory `m0`: only the struct at `p` and the spare capacity of its first slice have changed,
and the element sequence of the base has only been extended. -/
structure Inv (m0 : Memory) (p : Nat) (m : Memory) : Prop where
  errors_length : m.errors.length = m0.errors.length
  others : ∀ q, q ≠ p → m.getErr q = m0.getErr q
  format : (m.getErr p).ErrorFormat = (m0.getErr p).ErrorFormat
  frame : Frame m0 m (m0.getErr p).Errors
  valid : (m.getErr p).Errors.valid m = true
  located : Located m0 (m0.getErr p).Errors (m.getErr p).Errors
  grows : ∃ ys, m.elems p = m0.elems p ++ ys

/-- A growth policy for the examples: twice the old capacity. -/
def growDouble (old _needed : Nat) : Nat := 2 * old

/-- A memory in which two composites share one backing array `s = [a, b, c]`: the struct at
address `0` has `Errors = s[:1]` (length 1, capacity 3), the struct at address `1` has
`Errors = s[1:]` (length 2, capacity 2). -/
def sharedArray : Memory :=
  { arrays := [[.plain 1 "a", .plain 2 "b", .plain 3 "c"]],
    errors := [⟨⟨0, 0, 1, 3⟩, none⟩, ⟨⟨0, 1, 2, 2⟩, none⟩] }

/-- A memory in which two composites have backing arrays of their own: `[a]` with capacity 3
at address `0`, `[b, c]` at address `1`. -/
def separateArrays : Memory :=
  { arrays := [[.plain 1 "a", .nil, .nil], [.plain 2 "b", .plain 3 "c"]],
    errors := [⟨⟨0, 0, 1, 3⟩, none⟩, ⟨⟨1, 0, 2, 2⟩, none⟩] }

/-- The value-level reading of an argument of `Append` held in memory: a non-nil `*Error`
becomes the composite of its elements as read in `m`, each element and each plain failure
being translated by `abs`. -/
def lift (abs : Value → GoError) (m : Memory) : Value → GoError
  | .nil => .nil
  | .nilPtr => .nilPtr
  | .ptr q => .ptr ((m.elems q).map abs) (m.getErr q).ErrorFormat
  | v => abs v

/-- A translation of the values held in memory that keeps plain failures and forgets what
lies behind a pointer or a chain. -/
def shallow : Value → GoError
  | .nil => .nil
  | .plain tag msg => .plain tag msg
  | .errorString msg => .errorString msg
  | .nilPtr => .nilPtr
  | .ptr _ => .nilPtr
  | .chain _ => .chain []

end heap

/-! ## Specification-side notions -/

/-- A composite is well-formed when none of its elements is absent and none is itself a
composite, that is when every element is a plain failure. -/
def Error.wellFormed (s : Error) : Bool := s.Errors.all GoError.isPlain

/-- Every composite among the given value is well-formed: a non-nil `*Error` has only plain
elements; any other value qualifies. -/
def GoError.wellFormed : GoError → Bool
  | .ptr es _ => es.all GoError.isPlain
  | _ => true

/-- An argument of `Append` that carries no failure: the absent value, a nil-valued composite
or a composite with zero elements. -/
def GoError.isEmptyInput : GoError → Bool
  | .nil => true
  | .nilPtr => true
  | .ptr [] _ => true
  | _ => false

/-- The failure values that can be built from absent and plain inputs (and the nil-valued
composite) using only `Append` and `Prefix`. -/
inductive Built (F : Formatters) : GoError → Prop where
  | absent : Built F .nil
  | nilPtr : Built F .nilPtr
  | plain (e : GoError) : e.isPlain = true → Built F e
  | append (err : GoError) (errs : List GoError) :
      Built F err → (∀ e ∈ errs, Built F e) → Built F (toError (Append err errs))
  | annotate (e : GoError) (pfx : String) : Built F e → Built F (Prefix F e pfx)

/-- What one argument of `Append` contributes to the element sequence, in the words of the
specification: nothing for the absent value and for a nil-valued composite, the element
sequence for a composite, the value itself for a plain failure. -/
def contrib : GoError → List GoError
  | .nil => []
  | .nilPtr => []
  | .ptr errs _ => errs
  | e => [e]

/-! ## Lemmas on `Append` -/

theorem appendStep_Errors (s : Error) (e : GoError) :
    (appendStep s e).Errors = s.Errors ++ contrib e := by
  cases e <;> simp [appendStep, contrib, GoError.isNil]

theorem appendStep_ErrorFormat (s : Error) (e : GoError) :
    (appendStep s e).ErrorFormat = s.ErrorFormat := by
  cases e <;> simp [appendStep, GoError.isNil]

theorem foldl_appendStep_Errors (errs : List GoError) (s : Error) :
    (errs.foldl appendStep s).Errors = s.Errors ++ (errs.map contrib).flatten := by
  induction errs generalizing s with
  | nil => simp
  | cons e es ih => simp [ih, appendStep_Errors, List.append_assoc]

theorem foldl_appendStep_ErrorFormat (errs : List GoError) (s : Error) :
    (errs.foldl appendStep s).ErrorFormat = s.ErrorFormat := by
  induction errs generalizing s with
  | nil => simp
  | cons e es ih => simp [ih, appendStep_ErrorFormat]

@[simp] theorem contrib_nil : contrib .nil = [] := rfl

@[simp] theorem contrib_nilPtr : contrib .nilPtr = [] := rfl

@[simp] theorem contrib_ptr (es : List GoError) (fn : Option ErrorFormatFunc) :
    contrib (.ptr es fn) = es := rfl

theorem contrib_of_isPlain {e : GoError} (h : e.isPlain = true) : contrib e = [e] := by
  cases e <;> simp_all [contrib, GoError.isPlain, GoError.isNil, GoError.isComposite]

theorem Append_isSome (err : GoError) (errs : List GoError) :
    ∃ r, Append err errs = some r := by
  cases err <;> simp [Append, appendPtr]

theorem WrappedErrors_Append (err : GoError) (errs : List GoError) :
    Error.WrappedErrors (Append err errs) = contrib err ++ (errs.map contrib).flatten := by
  cases err <;>
    simp [Append, appendPtr, Error.WrappedErrors, foldl_appendStep_Errors, contrib,
      GoError.isNil, appendStep_Errors]

theorem Append_Errors {err : GoError} {errs : List GoError} {r : Error}
    (h : Append err errs = some r) :
    r.Errors = contrib err ++ (errs.map contrib).flatten := by
  have := WrappedErrors_Append err errs
  rw [h] at this
  simpa [Error.WrappedErrors] using this

theorem mem_contrib_of_wellFormed {e x : GoError} (he : e.wellFormed = true)
    (hx : x ∈ contrib e) : x.isPlain = true := by
  cases e <;>
    simp_all [contrib, GoError.wellFormed, GoError.isPlain, GoError.isNil,
      GoError.isComposite]

theorem isComposite_eq_false_of_isPlain {x : GoError} (h : x.isPlain = true) :
    x.isComposite = false := by
  cases x <;> simp_all [GoError.isPlain, GoError.isComposite]

theorem ne_nil_of_isPlain {x : GoError} (h : x.isPlain = true) : x ≠ .nil := by
  cases x <;> simp_all [GoError.isPlain, GoError.isNil]

theorem Append_wellFormed {err : GoError} {errs : List GoError} {r : Error}
    (h : Append err errs = some r) (hb : err.wellFormed = true)
    (ha : ∀ e ∈ errs, e.wellFormed = true) : r.wellFormed = true := by
  simp only [Error.wellFormed, List.all_eq_true]
  intro x hx
  rw [Append_Errors h, List.mem_append, List.mem_flatten] at hx
  rcases hx with hx | ⟨l, hl, hx⟩
  · exact mem_contrib_of_wellFormed hb hx
  · obtain ⟨e, he, rfl⟩ := List.mem_map.1 hl
    exact mem_contrib_of_wellFormed (ha e he) hx

/-! ## Lemmas on `Prefix` -/

theorem foldl_prefixStep (F : Formatters) (pfx : String) (errs : List GoError) (k : Nat)
    (hk : k ≤ errs.length) :
    (List.range k).foldl (prefixStep F pfx) errs
      = (errs.take k).map (Errorf F pfx) ++ errs.drop k := by
  induction k with
  | zero => simp
  | succ k ih =>
    have hlt : k < errs.length := hk
    rw [List.range_succ, List.foldl_append, ih (Nat.le_of_lt hlt)]
    simp only [List.foldl_cons, List.foldl_nil, prefixStep]
    have hlen : ((errs.take k).map (Errorf F pfx)).length = k := by
      simp [Nat.min_eq_left (Nat.le_of_lt hlt)]
    have hget : ((errs.take k).map (Errorf F pfx) ++ errs.drop k)[k]? = some errs[k] := by
      rw [List.getElem?_append_right (by omega), hlen, Nat.sub_self]
      simp [hlt]
    rw [hget]
    simp only
    rw [List.set_append_right _ _ (by omega), hlen, Nat.sub_self]
    rw [List.drop_eq_getElem_cons hlt, List.set_cons_zero]
    rw [List.take_succ, List.getElem?_eq_getElem hlt]
    simp only [Option.toList_some, List.map_append, List.map_cons, List.map_nil,
      List.append_assoc, List.singleton_append]

theorem prefixLoop_eq_map (F : Formatters) (pfx : String) (errs : List GoError) :
    prefixLoop F pfx errs = errs.map (Errorf F pfx) := by
  simp [prefixLoop, foldl_prefixStep F pfx errs errs.length (Nat.le_refl _)]

theorem Prefix_nilPtr (F : Formatters) (pfx : String) :
    Prefix F .nilPtr pfx = .ptr [] none := by
  simp [Prefix, GoError.isNil, prefixLoop_eq_map]

theorem Prefix_of_isPlain (F : Formatters) (pfx : String) {e : GoError}
    (h : e.isPlain = true) : Prefix F e pfx = Errorf F pfx e := by
  cases e <;> simp_all [Prefix, GoError.isNil, GoError.isPlain, GoError.isComposite]

theorem Prefix_wellFormed (F : Formatters) (e : GoError) (pfx : String) :
    (Prefix F e pfx).wellFormed = true := by
  cases e <;>
    simp [Prefix, GoError.isNil, prefixLoop_eq_map, GoError.wellFormed, Errorf,
      GoError.isPlain, GoError.isComposite]

theorem Built_wellFormed {F : Formatters} {x : GoError} (h : Built F x) :
    x.wellFormed = true := by
  induction h with
  | absent => rfl
  | nilPtr => rfl
  | plain e he => cases e <;> simp_all [GoError.wellFormed, GoError.isPlain, GoError.isComposite]
  | append err errs _ _ ihb iha =>
    obtain ⟨r, hr⟩ := Append_isSome err errs
    have := Append_wellFormed hr ihb iha
    rw [hr]
    simpa [toError, GoError.wellFormed, Error.wellFormed] using this
  | annotate e pfx _ _ => exact Prefix_wellFormed F e pfx

/-! ## Merging: order, flattening, propagation -/

/-- C1. With the additions read as values (none of them aliased to the base), the element
sequence of `Append(base, additions)` is the contribution of the base
followed by the contributions of the additions in argument order, where the absent value
and a nil-valued composite contribute nothing, a plain failure contributes itself and a
composite contributes its element sequence.  In particular `Append(nil, a, b, c)` has the
elements `[a, b, c]` for plain `a`, `b`, `c`, and an absent base, a nil-valued composite
base and an empty composite base give the same element sequence. -/
theorem Append_order_preserved :
    (∀ (err : GoError) (errs : List GoError),
      Error.WrappedErrors (Append err errs)
        = contrib err ++ (errs.map contrib).flatten) ∧
    (∀ a b c : GoError, a.isPlain = true → b.isPlain = true → c.isPlain = true →
      Error.WrappedErrors (Append .nil [a, b, c]) = [a, b, c]) ∧
    (∀ (errs : List GoError) (fn : Option ErrorFormatFunc),
      Error.WrappedErrors (Append .nil errs) = Error.WrappedErrors (Append .nilPtr errs) ∧
      Error.WrappedErrors (Append .nilPtr errs)
        = Error.WrappedErrors (Append (.ptr [] fn) errs)) := by
  refine ⟨WrappedErrors_Append, ?_, ?_⟩
  · intro a b c ha hb hc
    simp [WrappedErrors_Append, contrib_of_isPlain ha, contrib_of_isPlain hb,
      contrib_of_isPlain hc]
  · intro errs fn
    simp [WrappedErrors_Append]

/-- Witness for C1: three plain failures merged into the absent base. -/
theorem Append_order_preserved_witness :
    Error.WrappedErrors
        (Append .nil [.plain 1 "a", .errorString "b", .chain [.plain 3 "c", .plain 4 "d"]])
      = [.plain 1 "a", .errorString "b", .chain [.plain 3 "c", .plain 4 "d"]] :=
  Append_order_preserved.2.1 _ _ _ rfl rfl rfl

/-- C2. Flattening law: for plain failures `a`, `b`, `c`, `Append(Append(nil, a, b), c)` is a
composite whose element sequence is exactly `[a, b, c]`, and none of its elements is a
composite. -/
theorem Append_flattening_law (a b c : GoError)
    (ha : a.isPlain = true) (hb : b.isPlain = true) (hc : c.isPlain = true) :
    ∃ r : Error, Append (toError (Append .nil [a, b])) [c] = some r ∧
      r.Errors = [a, b, c] ∧ ∀ x ∈ r.Errors, x.isComposite = false := by
  obtain ⟨r₁, h₁⟩ := Append_isSome .nil [a, b]
  have e₁ : r₁.Errors = [a, b] := by
    have := WrappedErrors_Append .nil [a, b]
    rw [h₁] at this
    simpa [Error.WrappedErrors, contrib_of_isPlain ha, contrib_of_isPlain hb] using this
  obtain ⟨r, h⟩ := Append_isSome (toError (Append .nil [a, b])) [c]
  have e : r.Errors = [a, b, c] := by
    have := WrappedErrors_Append (toError (Append .nil [a, b])) [c]
    rw [h, h₁] at this
    simpa [Error.WrappedErrors, toError, contrib_of_isPlain hc, e₁] using this
  refine ⟨r, h, e, ?_⟩
  intro x hx
  rw [e] at hx
  simp only [List.mem_cons, List.mem_singleton, List.not_mem_nil, or_false] at hx
  rcases hx with rfl | rfl | rfl
  · cases x <;> simp_all [GoError.isPlain, GoError.isComposite]
  · cases x <;> simp_all [GoError.isPlain, GoError.isComposite]
  · cases x <;> simp_all [GoError.isPlain, GoError.isComposite]

/-- Witness for C2. -/
theorem Append_flattening_law_witness :
    ∃ r : Error,
      Append (toError (Append .nil [.plain 1 "a", .plain 2 "b"])) [.plain 3 "c"] = some r ∧
      r.Errors = [.plain 1 "a", .plain 2 "b", .plain 3 "c"] ∧
      ∀ x ∈ r.Errors, x.isComposite = false :=
  Append_flattening_law (.plain 1 "a") (.plain 2 "b") (.plain 3 "c") rfl rfl rfl

/-- C3. No-nested-composite invariant.  A composite is well-formed when each of its elements
is a plain failure (not absent, not a composite).  If every composite among the base and the
additions is well-formed, `Append` returns a well-formed composite; `Prefix` of a well-formed
composite is a well-formed composite; hence a composite built from absent and plain inputs
using only `Append` and `Prefix` has no composite (and no absent value) among its
elements. -/
theorem no_nested_composite (F : Formatters) :
    (∀ (err : GoError) (errs : List GoError),
      err.wellFormed = true → (∀ e ∈ errs, e.wellFormed = true) →
      ∃ r : Error, Append err errs = some r ∧ r.wellFormed = true) ∧
    (∀ (e : GoError) (pfx : String), e.isComposite = true → e.wellFormed = true →
      (Prefix F e pfx).isComposite = true ∧ (Prefix F e pfx).wellFormed = true) ∧
    (∀ x : GoError, Built F x → ∀ (es : List GoError) (fn : Option ErrorFormatFunc),
      x = .ptr es fn → ∀ y ∈ es, y.isComposite = false ∧ y ≠ .nil) := by
  refine ⟨?_, ?_, ?_⟩
  · intro err errs hb ha
    obtain ⟨r, hr⟩ := Append_isSome err errs
    exact ⟨r, hr, Append_wellFormed hr hb ha⟩
  · intro e pfx hc _
    refine ⟨?_, Prefix_wellFormed F e pfx⟩
    cases e <;> simp_all [GoError.isComposite, Prefix, GoError.isNil]
  · intro x hx es fn hes y hy
    have hwf := Built_wellFormed hx
    subst hes
    simp only [GoError.wellFormed, List.all_eq_true] at hwf
    exact ⟨isComposite_eq_false_of_isPlain (hwf y hy), ne_nil_of_isPlain (hwf y hy)⟩

/-- Witness for C3: a well-formed composite base merged with a plain failure and a
well-formed composite. -/
theorem no_nested_composite_witness :
    ∃ r : Error,
      Append (.ptr [.plain 1 "a"] none) [.plain 2 "b", .ptr [.errorString "c"] none] = some r ∧
      r.wellFormed = true :=
  (no_nested_composite ⟨fun _ _ => "", fun _ => ""⟩).1
    (.ptr [.plain 1 "a"] none) [.plain 2 "b", .ptr [.errorString "c"] none] rfl
    (by decide)

/-- C5. For every base and every list of additions, `Append` returns a non-nil `*Error`: it
never returns the nil pointer, its result is never the absent failure, and the model has no
failing path. -/
theorem Append_never_absent (err : GoError) (errs : List GoError) :
    (∃ r : Error, Append err errs = some r) ∧
    Append err errs ≠ none ∧
    toError (Append err errs) ≠ .nil ∧
    toError (Append err errs) ≠ .nilPtr := by
  obtain ⟨r, hr⟩ := Append_isSome err errs
  refine ⟨⟨r, hr⟩, ?_, ?_, ?_⟩ <;> simp [hr, toError]

/-! ## Accessors -/

theorem contrib_eq_nil_iff (e : GoError) : contrib e = [] ↔ e.isEmptyInput = true := by
  cases e with
  | ptr es fn => cases es <;> simp [GoError.isEmptyInput]
  | _ => simp [contrib, GoError.isEmptyInput]

theorem ErrorOrNil_some_eq_nil_iff (s : Error) :
    Error.ErrorOrNil (some s) = .nil ↔ s.Errors = [] := by
  by_cases h : s.Errors = [] <;> simp [Error.ErrorOrNil, h, toError]

theorem GoError_ne_chain_singleton (a : GoError) : a ≠ .chain [a] := by
  intro h
  have := congrArg sizeOf h
  simp at this
  omega

theorem fmtS_of_Error {F : Formatters} {e : GoError} {m : String}
    (h : e.Error F = .ok m) : fmtS F e = m := by
  cases e <;> simp_all [fmtS, GoError.Error, Error.ErrorMsg]

theorem chain_Error_drop (F : Formatters) (es : List GoError) (k : Nat)
    (hk : k < es.length) :
    (GoError.chain (es.drop k)).Error F = es[k].Error F := by
  rw [List.drop_eq_getElem_cons hk]
  simp [GoError.Error]

theorem unwrapIter_chain (es : List GoError) (k : Nat) (hk : k < es.length) :
    unwrapIter (.chain es) k = .ok (.chain (es.drop k)) := by
  induction k with
  | zero => simp [unwrapIter]
  | succ k ih =>
    have hlen : (es.drop k).length = es.length - k := by simp
    have h1 : (es.drop k).length ≠ 1 := by omega
    have h2 : 1 ≤ (es.drop k).length := by omega
    simp [unwrapIter, ih (by omega), errors.Unwrap, chain.Unwrap, h2, Nat.add_comm,
      -List.length_drop]
    omega

theorem unwrapIter_chain_length (es : List GoError) (hn : 1 ≤ es.length) :
    unwrapIter (.chain es) es.length = .ok .nil := by
  obtain ⟨n, hn'⟩ : ∃ n, es.length = n + 1 := ⟨es.length - 1, by omega⟩
  rw [hn']
  have hlen : (es.drop n).length = 1 := by simp; omega
  simp only [unwrapIter, unwrapIter_chain es n (by omega), errors.Unwrap, chain.Unwrap, hlen]
  simp

/-- C6. `e.ErrorOrNil()` is absent if and only if the receiver is nil-valued or has zero
elements; otherwise it is the receiver itself, with the same elements and formatter. -/
theorem ErrorOrNil_absent_iff (e : Option Error) :
    (Error.ErrorOrNil e = .nil ↔ (e = none ∨ ∃ s, e = some s ∧ s.Errors.length = 0)) ∧
    (∀ s : Error, e = some s → s.Errors.length ≠ 0 →
      Error.ErrorOrNil e = toError e ∧
      Error.ErrorOrNil e = .ptr s.Errors s.ErrorFormat) := by
  constructor
  · cases e with
    | none => simp [Error.ErrorOrNil]
    | some s => simp [ErrorOrNil_some_eq_nil_iff]
  · intro s hs hne
    subst hs
    simp [Error.ErrorOrNil, hne, toError]

/-- Witness for C6: a composite with one element and a custom formatter. -/
theorem ErrorOrNil_absent_iff_witness :
    Error.ErrorOrNil (some { Errors := [.plain 1 "a"], ErrorFormat := some ⟨7⟩ })
        = toError (some { Errors := [.plain 1 "a"], ErrorFormat := some ⟨7⟩ }) ∧
      Error.ErrorOrNil (some { Errors := [.plain 1 "a"], ErrorFormat := some ⟨7⟩ })
        = .ptr [.plain 1 "a"] (some ⟨7⟩) :=
  (ErrorOrNil_absent_iff (some { Errors := [.plain 1 "a"], ErrorFormat := some ⟨7⟩ })).2
    _ rfl (by decide)

/-- C7. Emptiness collapses to success: `Append(nil)` with no additions is a zero-element
composite whose `ErrorOrNil()` is absent, and in general `Append(base, additions).ErrorOrNil()`
is absent if and only if the base and every addition is absent, a nil-valued composite or a
composite with zero elements. -/
theorem emptiness_collapses :
    (Append .nil [] = some { Errors := [], ErrorFormat := none } ∧
      Error.ErrorOrNil (Append .nil []) = .nil) ∧
    (∀ (err : GoError) (errs : List GoError),
      Error.ErrorOrNil (Append err errs) = .nil ↔
        (err.isEmptyInput = true ∧ ∀ e ∈ errs, e.isEmptyInput = true)) := by
  refine ⟨⟨rfl, rfl⟩, ?_⟩
  intro err errs
  obtain ⟨r, hr⟩ := Append_isSome err errs
  rw [hr, ErrorOrNil_some_eq_nil_iff, Append_Errors hr]
  simp [contrib_eq_nil_iff]

/-- C8. `Unwrap` on small receivers: a nil-valued composite and a composite with zero
elements unwrap to the absent value; a composite with exactly one element `a` unwraps to `a`
itself, not to a chain around it. -/
theorem Unwrap_small :
    Error.Unwrap none = .nil ∧
    (∀ fn : Option ErrorFormatFunc,
      Error.Unwrap (some { Errors := [], ErrorFormat := fn }) = .nil) ∧
    (∀ (a : GoError) (fn : Option ErrorFormatFunc),
      Error.Unwrap (some { Errors := [a], ErrorFormat := fn }) = a ∧
      Error.Unwrap (some { Errors := [a], ErrorFormat := fn }) ≠ .chain [a]) := by
  refine ⟨rfl, fun _ => rfl, fun a fn => ?_⟩
  have h : Error.Unwrap (some { Errors := [a], ErrorFormat := fn }) = a := rfl
  exact ⟨h, h ▸ GoError_ne_chain_singleton a⟩

/-- C9. Multi-cause chain walk: for a composite with elements `e_0 .. e_(n-1)`, `n ≥ 2`, let
`x_0` be its `Unwrap()` and `x_(k+1) = x_k.Unwrap()`.  For every `k < n`, `x_k` is the chain
over `e_k .. e_(n-1)` (a non-absent value) and its message is the message of `e_k`; `x_n` is
absent.  For `[a, b, c]` the walk is the chain at `a`, the chain at `b`, the chain at `c`,
then absent. -/
theorem chain_walk (F : Formatters) :
    (∀ s : Error, 2 ≤ s.Errors.length →
      (∀ (k : Nat) (hk : k < s.Errors.length),
        unwrapIter (Error.Unwrap (some s)) k = .ok (.chain (s.Errors.drop k)) ∧
        GoError.chain (s.Errors.drop k) ≠ .nil ∧
        (GoError.chain (s.Errors.drop k)).Error F = (s.Errors.get ⟨k, hk⟩).Error F) ∧
      unwrapIter (Error.Unwrap (some s)) s.Errors.length = .ok .nil) ∧
    (∀ (a b c : GoError) (fn : Option ErrorFormatFunc),
      unwrapIter (Error.Unwrap (some { Errors := [a, b, c], ErrorFormat := fn })) 0
        = .ok (.chain [a, b, c]) ∧
      unwrapIter (Error.Unwrap (some { Errors := [a, b, c], ErrorFormat := fn })) 1
        = .ok (.chain [b, c]) ∧
      unwrapIter (Error.Unwrap (some { Errors := [a, b, c], ErrorFormat := fn })) 2
        = .ok (.chain [c]) ∧
      unwrapIter (Error.Unwrap (some { Errors := [a, b, c], ErrorFormat := fn })) 3
        = .ok .nil ∧
      (GoError.chain [a, b, c]).Error F = a.Error F ∧
      (GoError.chain [b, c]).Error F = b.Error F ∧
      (GoError.chain [c]).Error F = c.Error F) := by
  constructor
  · intro s hn
    have hU : Error.Unwrap (some s) = .chain s.Errors := by
      have h0 : s.Errors.length ≠ 0 := by omega
      have h1 : s.Errors.length ≠ 1 := by omega
      simp [Error.Unwrap, h1]
      intro h
      simp [h] at hn
    rw [hU]
    refine ⟨fun k hk => ⟨unwrapIter_chain _ k hk, by simp, ?_⟩,
      unwrapIter_chain_length _ (by omega)⟩
    simpa using chain_Error_drop F s.Errors k hk
  · intro a b c fn
    refine ⟨rfl, rfl, rfl, rfl, rfl, rfl, rfl⟩

/-- Witness for C9: the second step of the walk over a composite with two elements. -/
theorem chain_walk_witness :
    unwrapIter (Error.Unwrap (some ⟨[.plain 1 "a", .plain 2 "b"], none⟩)) 1
        = .ok (.chain ([GoError.plain 1 "a", .plain 2 "b"].drop 1)) ∧
      GoError.chain ([GoError.plain 1 "a", .plain 2 "b"].drop 1) ≠ .nil ∧
      (GoError.chain ([GoError.plain 1 "a", .plain 2 "b"].drop 1)).Error
          ⟨fun _ _ => "", fun _ => ""⟩
        = (([GoError.plain 1 "a", .plain 2 "b"]).get ⟨1, by decide⟩).Error
          ⟨fun _ _ => "", fun _ => ""⟩ :=
  ((chain_walk ⟨fun _ _ => "", fun _ => ""⟩).1 ⟨[.plain 1 "a", .plain 2 "b"], none⟩
    (by decide)).1 1 (by decide)

/-! ## Annotation -/

/-- C11. `Prefix` on a plain failure: the result is a plain failure (not absent, not a
composite) whose message is the label, a blank, and the rendering of the input, which is the
input's message whenever it has one; a failure of a caller-defined type and a string failure
always have one.  For instance `Prefix(errors.New("foo"), "bar")` has the message
`"bar foo"`. -/
theorem Prefix_plain (F : Formatters) (err : GoError) (pfx : String)
    (hp : err.isPlain = true) :
    (Prefix F err pfx).isPlain = true ∧
    (Prefix F err pfx).isNil = false ∧
    (Prefix F err pfx).isComposite = false ∧
    (Prefix F err pfx).Error F = .ok (pfx ++ " " ++ fmtS F err) ∧
    (∀ m : String, err.Error F = .ok m →
      (Prefix F err pfx).Error F = .ok (pfx ++ " " ++ m)) ∧
    (∀ (tag : Nat) (msg : String),
      (Prefix F (.plain tag msg) pfx).Error F = .ok (pfx ++ " " ++ msg)) ∧
    (∀ msg : String,
      (Prefix F (.errorString msg) pfx).Error F = .ok (pfx ++ " " ++ msg)) ∧
    (Prefix F (.errorString "foo") "bar").Error F = .ok "bar foo" := by
  rw [Prefix_of_isPlain F pfx hp]
  refine ⟨rfl, rfl, rfl, rfl, fun m hm => ?_, fun tag msg => rfl, fun msg => rfl, ?_⟩
  · have hf : fmtS F err = m := fmtS_of_Error hm
    simp only [Errorf, GoError.Error, hf]
  · simp only [Prefix, GoError.isNil, Errorf, fmtS, GoError.Error]
    rfl

/-- Witness for C11: a failure of a caller-defined type. -/
theorem Prefix_plain_witness :
    (Prefix ⟨fun _ _ => "", fun _ => ""⟩ (.plain 1 "foo") "bar").Error
        ⟨fun _ _ => "", fun _ => ""⟩
      = .ok ("bar" ++ " " ++ fmtS ⟨fun _ _ => "", fun _ => ""⟩ (.plain 1 "foo")) :=
  (Prefix_plain ⟨fun _ _ => "", fun _ => ""⟩ (.plain 1 "foo") "bar" rfl).2.2.2.1

/-- C12. `Prefix` is a no-op on absence: `Prefix(nil, p)` is absent, and `Prefix(err, p)` is
absent only for the absent input; a plain failure, a composite and a nil-valued composite
all give a non-absent result. -/
theorem Prefix_absent_iff (F : Formatters) (err : GoError) (pfx : String) :
    Prefix F .nil pfx = .nil ∧
    (Prefix F err pfx = .nil ↔ err = .nil) ∧
    ((Prefix F err pfx).isNil = true ↔ err.isNil = true) := by
  refine ⟨rfl, ?_, ?_⟩ <;>
    cases err <;> simp [Prefix, GoError.isNil, Errorf]

/-- C13. Nil-base annotation: `Prefix` of a nil-valued composite is a non-absent composite
with zero elements and no custom formatter; its rendering is the default renderer applied
to the empty sequence, which for the default renderer of the specification is the
zero-count text; and its `ErrorOrNil()` is absent. -/
theorem Prefix_nil_composite (F : Formatters) (pfx : String) :
    Prefix F .nilPtr pfx = .ptr [] none ∧
    (Prefix F .nilPtr pfx).isNil = false ∧
    (Prefix F .nilPtr pfx).Error F = .ok (F.ListFormatFunc []) ∧
    (∀ (call : ErrorFormatFunc → List GoError → String) (point : GoError → String),
      (Prefix ⟨call, ListFormatFunc point⟩ .nilPtr pfx).Error ⟨call, ListFormatFunc point⟩
        = .ok "0 errors occurred:\n\t\n\n") ∧
    (∃ e : Option Error, (Prefix F .nilPtr pfx).asPtr = some e ∧
      Error.WrappedErrors e = [] ∧ Error.ErrorOrNil e = .nil) := by
  have h := Prefix_nilPtr F pfx
  refine ⟨h, by rw [h]; rfl, by rw [h]; rfl, fun call point => ?_, ?_⟩
  · rw [Prefix_nilPtr]
    simp only [GoError.Error, Error.ErrorMsg, ListFormatFunc]
    rfl
  · rw [h]
    exact ⟨some { Errors := [], ErrorFormat := none }, rfl, rfl, rfl⟩

/-! ## Further laws of `Append` -/

theorem contrib_toError (e : Option Error) : contrib (toError e) = Error.WrappedErrors e := by
  cases e <;> rfl

theorem Append_ErrorFormat_ptr (es : List GoError) (fn : Option ErrorFormatFunc)
    (errs : List GoError) :
    ∃ r : Error, Append (.ptr es fn) errs = some r ∧ r.ErrorFormat = fn := by
  simp [Append, appendPtr, foldl_appendStep_ErrorFormat]

theorem Append_ErrorFormat_none {err : GoError} (h : ∀ es fn, err ≠ .ptr es fn)
    (errs : List GoError) :
    ∃ r : Error, Append err errs = some r ∧ r.ErrorFormat = none := by
  cases err <;> simp_all [Append, appendPtr, foldl_appendStep_ErrorFormat]

/-- C18. Split-merge law: with the additions read as values, `Append(Append(x, as), bs)` has
the same element sequence as `Append(x, as ++ bs)`, and for a plain failure `p`,
`Append(p, as)` has the same element sequence as `Append(nil, p :: as)`. -/
theorem Append_split_merge :
    (∀ (x : GoError) (as bs : List GoError),
      Error.WrappedErrors (Append (toError (Append x as)) bs)
        = Error.WrappedErrors (Append x (as ++ bs))) ∧
    (∀ (p : GoError) (as : List GoError), p.isPlain = true →
      Error.WrappedErrors (Append p as) = Error.WrappedErrors (Append .nil (p :: as))) := by
  constructor
  · intro x as bs
    simp [WrappedErrors_Append, contrib_toError, List.append_assoc]
  · intro p as hp
    simp [WrappedErrors_Append, contrib_of_isPlain hp]

/-- Witness for C18: a string failure as the base. -/
theorem Append_split_merge_witness :
    Error.WrappedErrors (Append (.errorString "p") [.plain 1 "a", .ptr [.plain 2 "b"] none])
      = Error.WrappedErrors
          (Append .nil [.errorString "p", .plain 1 "a", .ptr [.plain 2 "b"] none]) :=
  Append_split_merge.2 (.errorString "p") [.plain 1 "a", .ptr [.plain 2 "b"] none] rfl

/-- C19. Formatter frame of `Append`: with a non-nil composite base the result has exactly
the formatter of the base; with an absent, plain or nil-valued composite base the result has
no custom formatter; in both cases the formatter of the result does not depend on the
additions, so the formatter of a composite passed as an addition is never carried over. -/
theorem Append_formatter_frame :
    (∀ (es : List GoError) (fn : Option ErrorFormatFunc) (errs : List GoError),
      ∃ r : Error, Append (.ptr es fn) errs = some r ∧ r.ErrorFormat = fn) ∧
    (∀ (err : GoError) (errs : List GoError),
      (err = .nil ∨ err.isPlain = true ∨ err = .nilPtr) →
      ∃ r : Error, Append err errs = some r ∧ r.ErrorFormat = none) ∧
    (∀ (err : GoError) (errs errs' : List GoError),
      (Append err errs).map Error.ErrorFormat = (Append err errs').map Error.ErrorFormat) ∧
    (∀ (es : List GoError) (fn : Option ErrorFormatFunc) (errs : List GoError),
      ∃ r : Error, Append .nil (.ptr es fn :: errs) = some r ∧ r.ErrorFormat = none) := by
  refine ⟨Append_ErrorFormat_ptr, ?_, ?_, ?_⟩
  · intro err errs h
    apply Append_ErrorFormat_none
    intro es fn he
    subst he
    simp [GoError.isPlain, GoError.isComposite] at h
  · intro err errs errs'
    cases err <;> simp [Append, appendPtr, foldl_appendStep_ErrorFormat]
  · intro es fn errs
    exact Append_ErrorFormat_none (fun _ _ h => by cases h) _

/-- Witness for C19: a plain base and a composite addition that has a formatter. -/
theorem Append_formatter_frame_witness :
    ∃ r : Error,
      Append (.plain 1 "a") [.ptr [.plain 2 "b"] (some ⟨7⟩)] = some r ∧
      r.ErrorFormat = none :=
  Append_formatter_frame.2.1 (.plain 1 "a") [.ptr [.plain 2 "b"] (some ⟨7⟩)]
    (Or.inr (Or.inl rfl))

/-! ## The collector as a sequential state machine -/

theorem WrappedErrors_complete (g : Group) (r : GoError) :
    Error.WrappedErrors (g.complete r).err = Error.WrappedErrors g.err ++ contrib r := by
  by_cases h : r.isNil = true
  · cases r <;> simp_all [Group.complete, GoError.isNil]
  · simp [Group.complete, h, WrappedErrors_Append, contrib_toError]

theorem WrappedErrors_foldl_complete (rs : List GoError) (g : Group) :
    Error.WrappedErrors (rs.foldl Group.complete g).err
      = Error.WrappedErrors g.err ++ (rs.map contrib).flatten := by
  induction rs generalizing g with
  | nil => simp
  | cons r rs ih => simp [ih, WrappedErrors_complete, List.append_assoc]

theorem flatten_contrib_eq_filter (rs : List GoError)
    (h : ∀ r ∈ rs, r.isNil = true ∨ r.isPlain = true) :
    (rs.map contrib).flatten = rs.filter (fun r => !r.isNil) := by
  induction rs with
  | nil => rfl
  | cons r rs ih =>
    have ih' := ih (fun x hx => h x (List.mem_cons_of_mem _ hx))
    rcases h r (List.mem_cons_self _ _) with hr | hr
    · cases r <;> simp_all [GoError.isNil]
    · have hn : r.isNil = false := by
        cases r <;> simp_all [GoError.isPlain, GoError.isNil]
      simp [contrib_of_isPlain hr, hn, ih']

theorem foldl_complete_of_isNil (rs : List GoError) (g : Group)
    (h : ∀ r ∈ rs, r.isNil = true) : rs.foldl Group.complete g = g := by
  induction rs generalizing g with
  | nil => rfl
  | cons r rs ih =>
    have hr := h r (List.mem_cons_self _ _)
    simp [List.foldl_cons, Group.complete, hr, ih g (fun x hx => h x (List.mem_cons_of_mem _ hx))]

/-- C15. The collector as a sequential state machine: the state starts as the nil `*Error`
and a task that completes with a non-absent result `r` turns the state into
`Append(state, r)`, any other leaves it unchanged.  For task results that are absent or
plain, the final element sequence is the subsequence of the non-absent results in
completion order; for another completion order of the same results the final elements are
a permutation of the same failures, of the same number; and if every task succeeds the
state is still the nil pointer, whose `ErrorOrNil()` is absent. -/
theorem collector_sequential :
    (∀ rs : List GoError, (∀ r ∈ rs, r.isNil = true ∨ r.isPlain = true) →
      Error.WrappedErrors (Group.run rs).Wait = rs.filter (fun r => !r.isNil)) ∧
    (∀ rs rs' : List GoError, (∀ r ∈ rs, r.isNil = true ∨ r.isPlain = true) →
      rs.Perm rs' →
      (Error.WrappedErrors (Group.run rs').Wait).Perm (rs.filter (fun r => !r.isNil)) ∧
      (Error.WrappedErrors (Group.run rs').Wait).length
        = (rs.filter (fun r => !r.isNil)).length) ∧
    (∀ rs : List GoError, (∀ r ∈ rs, r.isNil = true) →
      (Group.run rs).Wait = none ∧ Error.ErrorOrNil (Group.run rs).Wait = .nil) := by
  have key : ∀ rs : List GoError, (∀ r ∈ rs, r.isNil = true ∨ r.isPlain = true) →
      Error.WrappedErrors (Group.run rs).Wait = rs.filter (fun r => !r.isNil) := by
    intro rs h
    show Error.WrappedErrors (rs.foldl Group.complete { err := none }).err = _
    rw [WrappedErrors_foldl_complete, flatten_contrib_eq_filter rs h]
    rfl
  refine ⟨key, ?_, ?_⟩
  · intro rs rs' h hp
    have h' : ∀ r ∈ rs', r.isNil = true ∨ r.isPlain = true :=
      fun r hr => h r (hp.mem_iff.2 hr)
    rw [key rs' h']
    have hperm := (hp.filter (fun r => !r.isNil)).symm
    exact ⟨hperm, hperm.length_eq⟩
  · intro rs h
    have : Group.run rs = { err := none } := foldl_complete_of_isNil rs _ h
    simp [this, Group.Wait, Error.ErrorOrNil]

/-- Witness for C15: three tasks, the second of which succeeds. -/
theorem collector_sequential_witness :
    Error.WrappedErrors (Group.run [.plain 1 "a", .nil, .errorString "c"]).Wait
      = [GoError.plain 1 "a", .nil, .errorString "c"].filter (fun r => !r.isNil) :=
  collector_sequential.1 [.plain 1 "a", .nil, .errorString "c"] (by decide)

/-! ## The ordering adapter -/

theorem perm_cons_set (x : GoError) (t : List GoError) (j : Nat) (hj : j < t.length) :
    (t[j] :: t.set j x).Perm (x :: t) := by
  induction t generalizing j with
  | nil => simp at hj
  | cons y t ih =>
    cases j with
    | zero => simpa using List.Perm.swap x y t
    | succ k =>
      have hk : k < t.length := by simpa using hj
      simp only [List.getElem_cons_succ, List.set_cons_succ]
      exact ((List.Perm.swap y t[k] (t.set k x)).trans ((ih k hk).cons y)).trans
        (List.Perm.swap x y t)

theorem perm_set_set_of_lt (l : List GoError) (i j : Nat) (hij : i < j)
    (hj : j < l.length) :
    ((l.set i l[j]).set j (l.get ⟨i, by omega⟩)).Perm l := by
  induction l generalizing i j with
  | nil => simp at hj
  | cons x t ih =>
    cases j with
    | zero => omega
    | succ j' =>
      have hj' : j' < t.length := by simpa using hj
      cases i with
      | zero => simpa using perm_cons_set x t j' hj'
      | succ i' => simpa using ih i' j' (by omega) hj'

theorem set_set_getElem_self (l : List GoError) (i : Nat) (hi : i < l.length) :
    (l.set i l[i]).set i l[i] = l := by
  apply List.ext_getElem?
  intro k
  by_cases hk : i = k
  · subst hk
    simp [hi]
  · simp [hk]

theorem perm_set_set (l : List GoError) (i j : Nat) (hi : i < l.length)
    (hj : j < l.length) :
    ((l.set i l[j]).set j l[i]).Perm l := by
  rcases Nat.lt_trichotomy i j with h | h | h
  · exact perm_set_set_of_lt l i j h hj
  · subst h
    rw [set_set_getElem_self l i hi]
  · rw [List.set_comm l[j] l[i] l (by omega)]
    exact perm_set_set_of_lt l j i h hi

theorem set_set_twice (l : List GoError) (i j : Nat) (hi : i < l.length)
    (hj : j < l.length) (l' : List GoError) (hl' : l' = (l.set i l[j]).set j l[i])
    (hi' : i < l'.length) (hj' : j < l'.length) :
    (l'.set i l'[j]).set j l'[i] = l := by
  subst hl'
  apply List.ext_getElem?
  intro k
  by_cases hkj : j = k
  · subst hkj
    by_cases hij : i = j
    · subst hij
      simp [hi]
    · simp [hj, List.getElem_set, hij, Ne.symm hij]
  · by_cases hki : i = k
    · subst hki
      simp [List.getElem?_set, List.getElem_set, hkj, hi, hj]
    · simp [List.getElem?_set, hkj, hki]

theorem indexAt_natCast (errs : List GoError) (i : Nat) (hi : i < errs.length) :
    indexAt errs (i : Int) = .ok errs[i] := by
  have h0 : ¬ ((i : Int) < 0) := by omega
  simp [indexAt, h0, List.getElem?_eq_getElem hi]

theorem indexAt_eq_ok {errs : List GoError} {i : Int} {e : GoError}
    (h : indexAt errs i = .ok e) : 0 ≤ i ∧ errs[i.toNat]? = some e := by
  unfold indexAt at h
  split at h
  · cases h
  · rename_i hi
    split at h
    · rename_i x hx
      cases h
      exact ⟨by omega, hx⟩
    · cases h

theorem Swap_natCast (s : Error) (i j : Nat) (hi : i < s.Errors.length)
    (hj : j < s.Errors.length) :
    Error.Swap (some s) (i : Int) (j : Int)
      = .ok { s with Errors := (s.Errors.set i s.Errors[j]).set j s.Errors[i] } := by
  simp [Error.Swap, indexAt_natCast _ _ hi, indexAt_natCast _ _ hj]

theorem Less_eq_ok_true {F : Formatters} {e : Option Error} {i j : Int}
    (h : Error.Less F e i j = .ok true) :
    ∃ (s : Error) (ei ej : GoError) (mi mj : String), e = some s ∧
      indexAt s.Errors i = .ok ei ∧ ei.Error F = .ok mi ∧
      indexAt s.Errors j = .ok ej ∧ ej.Error F = .ok mj ∧ mi < mj := by
  cases e with
  | none => simp [Error.Less] at h
  | some s =>
    unfold Error.Less at h
    simp only at h
    split at h
    · cases h
    · rename_i ei hei
      split at h
      · cases h
      · rename_i mi hmi
        split at h
        · cases h
        · rename_i ej hej
          split at h
          · cases h
          · rename_i mj hmj
            have hlt : mi < mj := by simpa using h
            exact ⟨s, ei, ej, mi, mj, rfl, hei, hmi, hej, hmj, hlt⟩

theorem Less_eq_of_messages {F : Formatters} {s : Error} {i j : Int} {ei ej : GoError}
    {mi mj : String} (hei : indexAt s.Errors i = .ok ei) (hmi : ei.Error F = .ok mi)
    (hej : indexAt s.Errors j = .ok ej) (hmj : ej.Error F = .ok mj) :
    Error.Less F (some s) i j = .ok (decide (mi < mj)) := by
  simp [Error.Less, hei, hmi, hej, hmj]

/-- C17. Ordering adapter.  `Len()` is the number of elements, `0` for a nil receiver.  For
`i, j < Len()`, `Swap(i, j)` returns normally and leaves the formatter and the length
unchanged, positions `i` and `j` hold the old elements at `j` and `i`, every other position
is unchanged, the new sequence is a permutation of the old one, and a second `Swap(i, j)`
restores the original.  `Less(i, j)` holds exactly when the message of the element at `i`
is lexicographically less than that of the element at `j`; `Less` is irreflexive and
transitive. -/
theorem ordering_adapter (F : Formatters) :
    (Error.Len none = 0 ∧ ∀ s : Error, Error.Len (some s) = (s.Errors.length : Int)) ∧
    (∀ (s : Error) (i j : Nat),
      (i : Int) < Error.Len (some s) → (j : Int) < Error.Len (some s) →
      ∃ s' : Error, Error.Swap (some s) (i : Int) (j : Int) = .ok s' ∧
        s'.ErrorFormat = s.ErrorFormat ∧
        s'.Errors.length = s.Errors.length ∧
        s'.Errors[i]? = s.Errors[j]? ∧
        s'.Errors[j]? = s.Errors[i]? ∧
        (∀ k : Nat, k ≠ i → k ≠ j → s'.Errors[k]? = s.Errors[k]?) ∧
        s'.Errors.Perm s.Errors ∧
        Error.Swap (some s') (i : Int) (j : Int) = .ok s) ∧
    (∀ (s : Error) (i j : Nat) (hi : i < s.Errors.length) (hj : j < s.Errors.length)
      (mi mj : String),
      (s.Errors.get ⟨i, hi⟩).Error F = .ok mi → (s.Errors.get ⟨j, hj⟩).Error F = .ok mj →
      Error.Less F (some s) (i : Int) (j : Int) = .ok (decide (mi < mj)) ∧
      (Error.Less F (some s) (i : Int) (j : Int) = .ok true ↔ mi < mj)) ∧
    (∀ (e : Option Error) (i : Int), Error.Less F e i i ≠ .ok true) ∧
    (∀ (e : Option Error) (i j k : Int),
      Error.Less F e i j = .ok true → Error.Less F e j k = .ok true →
      Error.Less F e i k = .ok true) := by
  refine ⟨⟨rfl, fun _ => rfl⟩, ?_, ?_, ?_, ?_⟩
  · intro s i j hi hj
    have hi' : i < s.Errors.length := by simpa [Error.Len] using hi
    have hj' : j < s.Errors.length := by simpa [Error.Len] using hj
    refine ⟨_, Swap_natCast s i j hi' hj', rfl, by simp, ?_, ?_, ?_, ?_, ?_⟩
    · by_cases hij : j = i
      · subst hij
        simp [hi']
      · simp [List.getElem?_set, hij, hi', hj', List.getElem?_eq_getElem]
    · simp [hi', hj', List.getElem?_eq_getElem]
    · intro k hki hkj
      simp [List.getElem?_set, Ne.symm hki, Ne.symm hkj]
    · exact perm_set_set s.Errors i j hi' hj'
    · have hl : ((s.Errors.set i s.Errors[j]).set j s.Errors[i]).length = s.Errors.length := by
        simp
      rw [Swap_natCast _ i j (by simpa using hi') (by simpa using hj')]
      have := set_set_twice s.Errors i j hi' hj' _ rfl (by rw [hl]; exact hi')
        (by rw [hl]; exact hj')
      simp only [this]
  · intro s i j hi hj mi mj hmi hmj
    have h := Less_eq_of_messages (F := F) (s := s) (indexAt_natCast _ i hi) hmi
      (indexAt_natCast _ j hj) hmj
    refine ⟨h, ?_⟩
    rw [h]
    simp
  · intro e i h
    obtain ⟨s, ei, ej, mi, mj, _, hei, hmi, hej, hmj, hlt⟩ := Less_eq_ok_true h
    rw [hei] at hej
    cases hej
    rw [hmi] at hmj
    cases hmj
    exact lt_irrefl _ hlt
  · intro e i j k hij hjk
    obtain ⟨s, ei, ej, mi, mj, he, hei, hmi, hej, hmj, hlt⟩ := Less_eq_ok_true hij
    obtain ⟨s', ej', ek, mj', mk, he', hej', hmj', hek, hmk, hlt'⟩ := Less_eq_ok_true hjk
    subst he
    cases he'
    rw [hej] at hej'
    cases hej'
    rw [hmj] at hmj'
    cases hmj'
    rw [Less_eq_of_messages hei hmi hek hmk]
    simp [lt_trans hlt hlt']

/-- Witness for C17: the two elements of a composite are exchanged. -/
theorem ordering_adapter_witness :
    ∃ s' : Error,
      Error.Swap (some ⟨[.plain 1 "b", .plain 2 "a"], none⟩) ((0 : Nat) : Int) ((1 : Nat) : Int)
        = .ok s' ∧
      s'.ErrorFormat = (Error.mk [.plain 1 "b", .plain 2 "a"] none).ErrorFormat ∧
      s'.Errors.length = (Error.mk [.plain 1 "b", .plain 2 "a"] none).Errors.length ∧
      s'.Errors[0]? = (Error.mk [.plain 1 "b", .plain 2 "a"] none).Errors[1]? ∧
      s'.Errors[1]? = (Error.mk [.plain 1 "b", .plain 2 "a"] none).Errors[0]? ∧
      (∀ k : Nat, k ≠ 0 → k ≠ 1 →
        s'.Errors[k]? = (Error.mk [.plain 1 "b", .plain 2 "a"] none).Errors[k]?) ∧
      s'.Errors.Perm (Error.mk [.plain 1 "b", .plain 2 "a"] none).Errors ∧
      Error.Swap (some s') ((0 : Nat) : Int) ((1 : Nat) : Int)
        = .ok (Error.mk [.plain 1 "b", .plain 2 "a"] none) :=
  (ordering_adapter ⟨fun _ _ => "", fun _ => ""⟩).2.1
    ⟨[.plain 1 "b", .plain 2 "a"], none⟩ 0 1 (by decide) (by decide)

/-! ## Introspection of chains -/

theorem Unwrap_of_two_le (s : Error) (hn : 2 ≤ s.Errors.length) :
    Error.Unwrap (some s) = .chain s.Errors := by
  have h0 : s.Errors.length ≠ 0 := by omega
  have h1 : s.Errors.length ≠ 1 := by omega
  simp only [Error.Unwrap, h0, h1, if_false, dif_neg, not_false_eq_true]

theorem Unwrap_eq_chain_of_ne_one {s : Error} {l : List GoError}
    (h1 : s.Errors.length ≠ 1) (h : Error.Unwrap (some s) = .chain l) :
    l = s.Errors ∧ 2 ≤ l.length := by
  by_cases h0 : s.Errors.length = 0
  · simp [Error.Unwrap, h0] at h
  · have h2 : 2 ≤ s.Errors.length := by omega
    rw [Unwrap_of_two_le s h2] at h
    cases h
    exact ⟨rfl, h2⟩

theorem chain_Unwrap_eq_chain {l l' : List GoError}
    (h : chain.Unwrap l = .ok (.chain l')) : 2 ≤ l.length ∧ l' = l.drop 1 := by
  unfold chain.Unwrap at h
  split at h
  · cases h
  · rename_i h1
    split at h
    · rename_i h2
      cases h
      exact ⟨by omega, rfl⟩
    · cases h

theorem chain_Unwrap_isOk_of_pos {l : List GoError} (h : 1 ≤ l.length) :
    ∃ y, chain.Unwrap l = .ok y := by
  unfold chain.Unwrap
  by_cases h1 : l.length = 1
  · exact ⟨_, if_pos h1⟩
  · exact ⟨.chain (l.drop 1), by rw [if_neg h1, if_pos h]⟩

theorem ChainReachable_length {s : Error} {l : List GoError} (h : ChainReachable s l) :
    1 ≤ l.length := by
  induction h with
  | start l h1 hU => have := (Unwrap_eq_chain_of_ne_one h1 hU).2; omega
  | step l l' _ hU _ =>
    obtain ⟨h2, rfl⟩ := chain_Unwrap_eq_chain hU
    simp
    omega

theorem walker_chain {τ : Type} (I : Introspection τ) (target : GoError)
    (es : List GoError) (hne : es ≠ []) (fuel : Nat) (hf : es.length + 1 ≤ fuel) :
    walker I target fuel (.chain es) = .ok (es.any (fun e => I.Is e target)) := by
  induction es generalizing fuel with
  | nil => exact absurd rfl hne
  | cons e rest ih =>
    obtain ⟨f, rfl⟩ : ∃ f, fuel = f + 1 := ⟨fuel - 1, by simp at hf; omega⟩
    have hf' : rest.length + 1 ≤ f := by simpa using hf
    by_cases he : I.Is e target = true
    · simp [walker, GoError.isNil, nodeIs, chain.Is, he]
    · have he' : I.Is e target = false := by simpa using he
      cases rest with
      | nil =>
        obtain ⟨f', rfl⟩ : ∃ f', f = f' + 1 := ⟨f - 1, by simp at hf'; omega⟩
        simp [walker, GoError.isNil, nodeIs, chain.Is, he', errors.Unwrap, chain.Unwrap]
      | cons e' rest' =>
        have := ih (by simp) f hf'
        simp [walker, GoError.isNil, nodeIs, chain.Is, he', errors.Unwrap, chain.Unwrap,
          this]

/-- C16. Chain introspection delegates to the head only: for a chain over `e_k .. e_(n-1)`
obtained by unwrapping a composite with `n ≥ 2` elements, `chain.Is(target)` is
`Is(e_k, target)` and `chain.As(target)` is `As(e_k, target)`, whatever the later elements
are.  A single-cause walker that tests the `Is` predicate of each node and follows `Unwrap`
until the absent value, started on the result of `Unwrap()` with enough steps allowed,
returns normally and reports a match exactly when `Is(e_i, target)` holds for some
element `e_i` of the composite. -/
theorem chain_introspection {τ : Type} (I : Introspection τ) :
    (∀ (e0 : GoError) (rest rest' : List GoError) (target : GoError) (t : τ),
      chain.Is I (e0 :: rest) target = .ok (I.Is e0 target) ∧
      chain.As I (e0 :: rest) t = I.As e0 t ∧
      chain.Is I (e0 :: rest) target = chain.Is I (e0 :: rest') target ∧
      chain.As I (e0 :: rest) t = chain.As I (e0 :: rest') t) ∧
    (∀ s : Error, 2 ≤ s.Errors.length →
      ∀ (k : Nat) (hk : k < s.Errors.length) (target : GoError) (t : τ),
        unwrapIter (Error.Unwrap (some s)) k = .ok (.chain (s.Errors.drop k)) ∧
        chain.Is I (s.Errors.drop k) target = .ok (I.Is (s.Errors.get ⟨k, hk⟩) target) ∧
        chain.As I (s.Errors.drop k) t = I.As (s.Errors.get ⟨k, hk⟩) t) ∧
    (∀ s : Error, 2 ≤ s.Errors.length →
      ∀ (target : GoError) (fuel : Nat), s.Errors.length + 1 ≤ fuel →
        walker I target fuel (Error.Unwrap (some s))
          = .ok (s.Errors.any (fun e => I.Is e target)) ∧
        (walker I target fuel (Error.Unwrap (some s)) = .ok true ↔
          ∃ e ∈ s.Errors, I.Is e target = true)) := by
  refine ⟨fun _ _ _ _ _ => ⟨rfl, rfl, rfl, rfl⟩, ?_, ?_⟩
  · intro s hn k hk target t
    rw [Unwrap_of_two_le s hn]
    refine ⟨unwrapIter_chain _ k hk, ?_, ?_⟩
    · rw [List.drop_eq_getElem_cons hk]
      rfl
    · rw [List.drop_eq_getElem_cons hk]
      rfl
  · intro s hn target fuel hf
    have hne : s.Errors ≠ [] := by
      intro h
      simp [h] at hn
    have hw := walker_chain I target s.Errors hne fuel hf
    rw [Unwrap_of_two_le s hn, hw]
    refine ⟨rfl, ?_⟩
    simp

/-- Witness for C16: the walker finds a target that only the second element matches. -/
theorem chain_introspection_witness :
    walker (τ := Unit) ⟨fun e _ => e.isComposite, fun _ _ => .ok false⟩ .nil 3
        (Error.Unwrap (some ⟨[.plain 1 "a", .nilPtr], none⟩))
      = .ok ([GoError.plain 1 "a", .nilPtr].any (fun e => e.isComposite)) ∧
      (walker (τ := Unit) ⟨fun e _ => e.isComposite, fun _ _ => .ok false⟩ .nil 3
          (Error.Unwrap (some ⟨[.plain 1 "a", .nilPtr], none⟩)) = .ok true ↔
        ∃ e ∈ [GoError.plain 1 "a", .nilPtr], e.isComposite = true) :=
  (chain_introspection (τ := Unit) ⟨fun e _ => e.isComposite, fun _ _ => .ok false⟩).2.2
    ⟨[.plain 1 "a", .nilPtr], none⟩ (by decide) .nil 3 (by decide)

/-- C20, as amended.  Chain non-emptiness: the chain that `Error.Unwrap` builds (it converts
to a chain only when the receiver does not have exactly one element; with exactly one
element it returns that element itself, whatever it is) has at least two elements, and every
chain reachable from it by `chain.Unwrap` steps has at least one; so on each of them the
index `e[0]` of `chain.Error`, `chain.Is` and `chain.As` is in range (the methods delegate
to the first element) and the slice `e[1:]` of `chain.Unwrap` is in range (the method
returns).  `chain.Unwrap` never returns an empty chain. -/
theorem chain_nonempty {τ : Type} (F : Formatters) (I : Introspection τ) :
    (∀ (s : Error) (l : List GoError), s.Errors.length ≠ 1 →
      Error.Unwrap (some s) = .chain l → 2 ≤ l.length) ∧
    (∀ (s : Error) (l : List GoError), ChainReachable s l →
      1 ≤ l.length ∧
      (∃ (e0 : GoError) (rest : List GoError), l = e0 :: rest ∧
        (GoError.chain l).Error F = e0.Error F ∧
        (∀ target : GoError, chain.Is I l target = .ok (I.Is e0 target)) ∧
        (∀ t : τ, chain.As I l t = I.As e0 t)) ∧
      (∃ y : GoError, chain.Unwrap l = .ok y)) ∧
    (∀ l l' : List GoError, chain.Unwrap l = .ok (.chain l') → 1 ≤ l'.length) ∧
    (∀ (a : GoError) (fn : Option ErrorFormatFunc),
      Error.Unwrap (some { Errors := [a], ErrorFormat := fn }) = a) := by
  refine ⟨fun s l h1 hU => (Unwrap_eq_chain_of_ne_one h1 hU).2, ?_, ?_, fun _ _ => rfl⟩
  · intro s l hr
    have hlen := ChainReachable_length hr
    refine ⟨hlen, ?_, chain_Unwrap_isOk_of_pos hlen⟩
    cases l with
    | nil => simp at hlen
    | cons e0 rest =>
      exact ⟨e0, rest, rfl, by simp [GoError.Error], fun _ => rfl, fun _ => rfl⟩
  · intro l l' h
    obtain ⟨h2, rfl⟩ := chain_Unwrap_eq_chain h
    simp
    omega

/-- Counterexample to C20 as stated.  The chain over `[b]` is reached by one `Unwrap` step
from the `Unwrap()` of the composite over `[a, b]`; merged into the absent base it is the
single element of a composite, and the `Unwrap()` of that composite returns it: a chain
first returned by `Error.Unwrap()` that has length 1, not 2. -/
theorem Unwrap_returns_short_chain :
    unwrapIter (Error.Unwrap (some ⟨[.plain 1 "a", .plain 2 "b"], none⟩)) 1
      = .ok (.chain [.plain 2 "b"]) ∧
    Append .nil [.chain [.plain 2 "b"]] = some ⟨[.chain [.plain 2 "b"]], none⟩ ∧
    Error.Unwrap (Append .nil [.chain [.plain 2 "b"]]) = .chain [.plain 2 "b"] ∧
    ¬ (2 ≤ [GoError.plain 2 "b"].length) :=
  ⟨rfl, rfl, rfl, by decide⟩

/-- Witness for C20: the chain reached in one step from the `Unwrap()` of a composite with
two elements. -/
theorem chain_nonempty_witness :
    1 ≤ [GoError.plain 2 "b"].length ∧
      (∃ (e0 : GoError) (rest : List GoError), [GoError.plain 2 "b"] = e0 :: rest ∧
        (GoError.chain [GoError.plain 2 "b"]).Error ⟨fun _ _ => "", fun _ => ""⟩
          = e0.Error ⟨fun _ _ => "", fun _ => ""⟩ ∧
        (∀ target : GoError,
          chain.Is (τ := Unit) ⟨fun _ _ => false, fun _ _ => .ok false⟩
            [GoError.plain 2 "b"] target = .ok false) ∧
        (∀ t : Unit,
          chain.As (τ := Unit) ⟨fun _ _ => false, fun _ _ => .ok false⟩
            [GoError.plain 2 "b"] t = .ok false)) ∧
      (∃ y : GoError, chain.Unwrap [GoError.plain 2 "b"] = .ok y) :=
  (chain_nonempty (τ := Unit) ⟨fun _ _ => "", fun _ => ""⟩
      ⟨fun _ _ => false, fun _ _ => .ok false⟩).2.1
    ⟨[.plain 1 "a", .plain 2 "b"], none⟩ [.plain 2 "b"]
    (ChainReachable.step [.plain 1 "a", .plain 2 "b"] [.plain 2 "b"]
      (ChainReachable.start _ (by decide) rfl) rfl)

/-! ## `Append` on memory -/

namespace heap

theorem writeCells_length (cells : List Value) (pos : Nat) (xs : List Value)
    (h : pos + xs.length ≤ cells.length) : (writeCells cells pos xs).length = cells.length := by
  simp [writeCells]
  omega

theorem writeCells_getElem?_of_lt (cells : List Value) (pos : Nat) (xs : List Value) (i : Nat)
    (h : pos + xs.length ≤ cells.length) (hi : i < pos) :
    (writeCells cells pos xs)[i]? = cells[i]? := by
  unfold writeCells
  rw [List.append_assoc, List.getElem?_append_left (by simp; omega)]
  rw [List.getElem?_take_of_lt hi]

theorem writeCells_getElem?_of_ge (cells : List Value) (pos : Nat) (xs : List Value) (i : Nat)
    (h : pos + xs.length ≤ cells.length) (hi : pos + xs.length ≤ i) :
    (writeCells cells pos xs)[i]? = cells[i]? := by
  unfold writeCells
  have h1 : (cells.take pos ++ xs).length = pos + xs.length := by simp; omega
  rw [List.getElem?_append_right (by omega), h1, List.getElem?_drop]
  congr 1
  omega

theorem take_drop_writeCells (cells : List Value) (off len : Nat) (xs : List Value)
    (h : off + len + xs.length ≤ cells.length) :
    ((writeCells cells (off + len) xs).drop off).take (len + xs.length)
      = (cells.drop off).take len ++ xs := by
  apply List.ext_getElem?
  intro k
  by_cases hk : k < len + xs.length
  · rw [List.getElem?_take_of_lt hk, List.getElem?_drop]
    by_cases hk' : k < len
    · rw [writeCells_getElem?_of_lt _ _ _ _ h (by omega)]
      rw [List.getElem?_append_left (by simp; omega), List.getElem?_take_of_lt hk',
        List.getElem?_drop]
    · have hl : ((cells.drop off).take len).length = len := by simp; omega
      rw [List.getElem?_append_right (by omega), hl]
      unfold writeCells
      have h1 : (cells.take (off + len)).length = off + len := by simp; omega
      rw [List.append_assoc, List.getElem?_append_right (by omega), h1,
        List.getElem?_append_left (by omega)]
      congr 1
      omega
  · have hl : ((cells.drop off).take len ++ xs).length = len + xs.length := by simp; omega
    rw [List.getElem?_eq_none (by simp; omega), List.getElem?_eq_none (by omega)]


theorem writeCells_nil (cells : List Value) (pos : Nat) : writeCells cells pos [] = cells := by
  simp [writeCells]

theorem cells_setCells (m : Memory) (a : Nat) (v : List Value) (b : Nat) :
    (m.setCells a v).cells b = if a = b ∧ a < m.arrays.length then v else m.cells b := by
  unfold Memory.cells Memory.setCells
  simp only [List.getD_eq_getElem?_getD, List.getElem?_set]
  by_cases hab : a = b
  · subst hab
    by_cases ha : a < m.arrays.length
    · simp [ha]
    · simp [ha, List.getElem?_eq_none (Nat.le_of_not_lt ha)]
  · simp [hab]

theorem cells_length_pos {m : Memory} {a : Nat} (h : 0 < (m.cells a).length) :
    a < m.arrays.length := by
  by_contra hlt
  have : m.cells a = [] := by
    unfold Memory.cells
    simp [List.getD_eq_getElem?_getD, List.getElem?_eq_none (Nat.le_of_not_lt hlt)]
  simp [this] at h

theorem cells_pushArray_of_lt (m : Memory) (v : List Value) (a : Nat)
    (h : a < m.arrays.length) : (m.pushArray v).cells a = m.cells a := by
  unfold Memory.cells Memory.pushArray
  simp [List.getD_eq_getElem?_getD, List.getElem?_append_left h]

theorem cells_pushArray_self (m : Memory) (v : List Value) :
    (m.pushArray v).cells m.arrays.length = v := by
  unfold Memory.cells Memory.pushArray
  simp [List.getD_eq_getElem?_getD]

theorem Slice.valid_iff (m : Memory) (s : Slice) :
    s.valid m = true ↔ s.len ≤ s.cap ∧ (s.cap = 0 ∨ s.off + s.cap ≤ (m.cells s.arr).length) := by
  simp [Slice.valid]

theorem readSlice_congr (m m' : Memory) (s : Slice)
    (h : ∀ i, s.off ≤ i → i < s.off + s.len → (m'.cells s.arr)[i]? = (m.cells s.arr)[i]?) :
    m'.readSlice s = m.readSlice s := by
  unfold Memory.readSlice
  apply List.ext_getElem?
  intro k
  by_cases hk : k < s.len
  · rw [List.getElem?_take_of_lt hk, List.getElem?_take_of_lt hk, List.getElem?_drop,
      List.getElem?_drop]
    exact h _ (by omega) (by omega)
  · rw [List.getElem?_eq_none (by simp; omega), List.getElem?_eq_none (by simp; omega)]

theorem readSlice_length_le (m : Memory) (s : Slice) : (m.readSlice s).length ≤ s.len := by
  simp [Memory.readSlice]

theorem readSlice_length (m : Memory) (s : Slice) (hv : s.valid m = true) :
    (m.readSlice s).length = s.len := by
  rw [Slice.valid_iff] at hv
  simp [Memory.readSlice]
  omega

/-- The cells of the memory after an in-place append. -/
theorem cells_appendInPlace (m : Memory) (s : Slice) (xs : List Value)
    (hv : s.valid m = true) (hle : s.len + xs.length ≤ s.cap) (a : Nat) :
    ((appendInPlace m s xs).1.cells a).length = (m.cells a).length ∧
    ∀ i, (a ≠ s.arr ∨ i < s.off + s.len ∨ s.off + s.cap ≤ i) →
      ((appendInPlace m s xs).1.cells a)[i]? = (m.cells a)[i]? := by
  rw [Slice.valid_iff] at hv
  obtain ⟨hlc, hcap⟩ := hv
  simp only [appendInPlace, cells_setCells]
  by_cases hx : xs = []
  · subst hx
    rw [writeCells_nil]
    split
    · rename_i h
      rw [h.1]
      exact ⟨rfl, fun _ _ => rfl⟩
    · exact ⟨rfl, fun _ _ => rfl⟩
  · have hxl : 0 < xs.length := List.length_pos.2 hx
    have hcells : s.off + s.cap ≤ (m.cells s.arr).length := by
      rcases hcap with h | h
      · omega
      · exact h
    split
    · rename_i h
      obtain ⟨rfl, _⟩ := h
      refine ⟨writeCells_length _ _ _ (by omega), fun i hi => ?_⟩
      rcases hi with hi | hi | hi
      · exact absurd rfl hi
      · exact writeCells_getElem?_of_lt _ _ _ _ (by omega) hi
      · exact writeCells_getElem?_of_ge _ _ _ _ (by omega) (by omega)
    · exact ⟨rfl, fun _ _ => rfl⟩

theorem appendInPlace_read (m : Memory) (s : Slice) (xs : List Value)
    (hv : s.valid m = true) (hle : s.len + xs.length ≤ s.cap) :
    (appendInPlace m s xs).1.readSlice (appendInPlace m s xs).2 = m.readSlice s ++ xs := by
  have hv' := (Slice.valid_iff m s).1 hv
  obtain ⟨hlc, hcap⟩ := hv'
  by_cases hx : xs = []
  · subst hx
    have := readSlice_congr m (appendInPlace m s []).1 s (fun i _ hi =>
      (cells_appendInPlace m s [] hv hle s.arr).2 i (Or.inr (Or.inl hi)))
    simpa [appendInPlace] using this
  · have hxl : 0 < xs.length := List.length_pos.2 hx
    have hcells : s.off + s.cap ≤ (m.cells s.arr).length := by
      rcases hcap with h | h
      · omega
      · exact h
    have harr : s.arr < m.arrays.length := cells_length_pos (by omega)
    simp only [appendInPlace, Memory.readSlice, cells_setCells, harr, and_self, if_true]
    exact take_drop_writeCells _ _ _ _ (by omega)

theorem appendGrow_read (grow : Nat → Nat → Nat) (m : Memory) (s : Slice) (xs : List Value)
    (hv : s.valid m = true) :
    (appendGrow grow m s xs).1.readSlice (appendGrow grow m s xs).2 = m.readSlice s ++ xs := by
  have hl := readSlice_length m s hv
  simp only [appendGrow, Memory.readSlice, cells_pushArray_self, List.drop_zero]
  rw [List.take_append_of_le_length (by simp [Memory.readSlice] at hl ⊢; omega)]
  rw [List.take_of_length_le (by simp [Memory.readSlice] at hl ⊢)]

theorem appendSlice_read (grow : Nat → Nat → Nat) (m : Memory) (s : Slice) (xs : List Value)
    (hv : s.valid m = true) :
    (appendSlice grow m s xs).1.readSlice (appendSlice grow m s xs).2 = m.readSlice s ++ xs := by
  unfold appendSlice
  split
  · exact appendInPlace_read m s xs hv (by assumption)
  · exact appendGrow_read grow m s xs hv

theorem appendSlice_valid (grow : Nat → Nat → Nat) (m : Memory) (s : Slice)
    (xs : List Value) (hv : s.valid m = true) :
    (appendSlice grow m s xs).2.valid (appendSlice grow m s xs).1 = true := by
  have hl := readSlice_length m s hv
  have hv' := (Slice.valid_iff m s).1 hv
  unfold appendSlice
  split
  · rename_i hle
    rw [Slice.valid_iff]
    have hc := (cells_appendInPlace m s xs hv hle s.arr).1
    refine ⟨hle, ?_⟩
    rcases hv'.2 with h | h
    · exact Or.inl h
    · right
      show s.off + s.cap ≤ ((appendInPlace m s xs).1.cells s.arr).length
      rw [hc]
      exact h
  · rw [Slice.valid_iff]
    simp only [appendGrow, cells_pushArray_self]
    refine ⟨Nat.le_max_left _ _, Or.inr ?_⟩
    simp only [List.length_append, List.length_replicate, hl]
    omega

theorem appendSlice_errors (grow : Nat → Nat → Nat) (m : Memory) (s : Slice)
    (xs : List Value) : (appendSlice grow m s xs).1.errors = m.errors := by
  unfold appendSlice
  split <;> rfl

theorem appendSlice_arrays_length (grow : Nat → Nat → Nat) (m : Memory) (s : Slice)
    (xs : List Value) : m.arrays.length ≤ (appendSlice grow m s xs).1.arrays.length := by
  unfold appendSlice
  split <;> simp [appendInPlace, appendGrow, Memory.setCells, Memory.pushArray]

theorem appendSlice_frame (grow : Nat → Nat → Nat) (m : Memory) (s : Slice)
    (xs : List Value) (hv : s.valid m = true) (a : Nat) (ha : a < m.arrays.length) :
    ((appendSlice grow m s xs).1.cells a).length = (m.cells a).length ∧
    ∀ i, (a ≠ s.arr ∨ i < s.off + s.len ∨ s.off + s.cap ≤ i) →
      ((appendSlice grow m s xs).1.cells a)[i]? = (m.cells a)[i]? := by
  unfold appendSlice
  split
  · exact cells_appendInPlace m s xs hv (by assumption) a
  · simp only [appendGrow, cells_pushArray_of_lt m _ a ha]
    exact ⟨trivial, fun _ _ => trivial⟩

theorem appendSlice_located (grow : Nat → Nat → Nat) (m : Memory) (s : Slice)
    (xs : List Value) :
    ((appendSlice grow m s xs).2.arr = s.arr ∧ (appendSlice grow m s xs).2.off = s.off ∧
      (appendSlice grow m s xs).2.cap = s.cap ∧ s.len ≤ (appendSlice grow m s xs).2.len) ∨
    (appendSlice grow m s xs).2.arr = m.arrays.length := by
  unfold appendSlice
  split
  · left
    simp [appendInPlace]
  · right
    rfl

theorem getErr_setErrors (m : Memory) (p : Nat) (s : Slice) (q : Nat) :
    (m.setErrors p s).getErr q
      = if p = q ∧ p < m.errors.length then { m.getErr p with Errors := s } else m.getErr q := by
  unfold Memory.setErrors Memory.getErr
  simp only [List.getD_eq_getElem?_getD, List.getElem?_set]
  by_cases hpq : p = q
  · subst hpq
    by_cases hp : p < m.errors.length
    · simp [hp]
    · simp [hp, List.getElem?_eq_none (Nat.le_of_not_lt hp)]
  · simp [hpq]

theorem cells_setErrors (m : Memory) (p : Nat) (s : Slice) (a : Nat) :
    (m.setErrors p s).cells a = m.cells a := rfl

theorem readSlice_setErrors (m : Memory) (p : Nat) (s t : Slice) :
    (m.setErrors p s).readSlice t = m.readSlice t := rfl

theorem getErr_appendSlice (grow : Nat → Nat → Nat) (m : Memory) (s : Slice)
    (xs : List Value) (q : Nat) : (appendSlice grow m s xs).1.getErr q = m.getErr q := by
  unfold Memory.getErr
  rw [appendSlice_errors]

theorem elems_setErrors_self (m : Memory) (p : Nat) (s : Slice) (hp : p < m.errors.length) :
    (m.setErrors p s).elems p = m.readSlice s := by
  unfold Memory.elems
  rw [getErr_setErrors, if_pos ⟨rfl, hp⟩]
  rfl

theorem push_inv (grow : Nat → Nat → Nat) (m0 m : Memory) (p : Nat) (xs : List Value)
    (hp : p < m0.errors.length) (hI : Inv m0 p m) :
    Inv m0 p ((appendSlice grow m (m.getErr p).Errors xs).1.setErrors p
        (appendSlice grow m (m.getErr p).Errors xs).2) ∧
    ((appendSlice grow m (m.getErr p).Errors xs).1.setErrors p
        (appendSlice grow m (m.getErr p).Errors xs).2).elems p = m.elems p ++ xs := by
  have hpm : p < m.errors.length := by rw [hI.errors_length]; exact hp
  have hpr : p < (appendSlice grow m (m.getErr p).Errors xs).1.errors.length := by
    rw [appendSlice_errors]; exact hpm
  have hread := appendSlice_read grow m (m.getErr p).Errors xs hI.valid
  have helems : ((appendSlice grow m (m.getErr p).Errors xs).1.setErrors p
        (appendSlice grow m (m.getErr p).Errors xs).2).elems p = m.elems p ++ xs := by
    rw [elems_setErrors_self _ _ _ hpr, hread]
    rfl
  have hget : ((appendSlice grow m (m.getErr p).Errors xs).1.setErrors p
        (appendSlice grow m (m.getErr p).Errors xs).2).getErr p
      = { m.getErr p with Errors := (appendSlice grow m (m.getErr p).Errors xs).2 } := by
    rw [getErr_setErrors, if_pos ⟨rfl, hpr⟩, getErr_appendSlice]
  refine ⟨⟨?_, ?_, ?_, ?_, ?_, ?_, ?_⟩, helems⟩
  · show (List.set _ _ _).length = _
    rw [List.length_set, appendSlice_errors]
    exact hI.errors_length
  · intro q hq
    rw [getErr_setErrors, if_neg (fun h => hq h.1.symm), getErr_appendSlice]
    exact hI.others q hq
  · rw [hget]
    exact hI.format
  · obtain ⟨hN, hF⟩ := hI.frame
    refine ⟨Nat.le_trans hN (appendSlice_arrays_length grow m _ xs), fun a ha => ?_⟩
    obtain ⟨hlen, hcell⟩ := hF a ha
    obtain ⟨hlen', hcell'⟩ :=
      appendSlice_frame grow m (m.getErr p).Errors xs hI.valid a (Nat.lt_of_lt_of_le ha hN)
    refine ⟨?_, fun i hi => ?_⟩
    · rw [cells_setErrors, hlen', hlen]
    · rw [cells_setErrors, hcell' i ?_, hcell i hi]
      rcases hI.located with ⟨h1, h2, h3, h4⟩ | h
      · rcases hi with hi | hi | hi
        · exact Or.inl (by rw [h1]; exact hi)
        · exact Or.inr (Or.inl (by omega))
        · exact Or.inr (Or.inr (by omega))
      · exact Or.inl (by omega)
  · rw [hget]
    exact appendSlice_valid grow m (m.getErr p).Errors xs hI.valid
  · rw [hget]
    show Located m0 _ (appendSlice grow m (m.getErr p).Errors xs).2
    obtain ⟨hN, _⟩ := hI.frame
    rcases appendSlice_located grow m (m.getErr p).Errors xs with ⟨h1, h2, h3, h4⟩ | h
    · rcases hI.located with ⟨g1, g2, g3, g4⟩ | g
      · exact Or.inl ⟨by rw [h1, g1], by rw [h2, g2], by rw [h3, g3], by omega⟩
      · exact Or.inr (by rw [h1]; exact g)
    · exact Or.inr (by rw [h]; exact hN)
  · obtain ⟨ys, hys⟩ := hI.grows
    exact ⟨ys ++ xs, by rw [helems, hys, List.append_assoc]⟩

theorem appendStep_inv (grow : Nat → Nat → Nat) (m0 m : Memory) (p : Nat) (e : Value)
    (hp : p < m0.errors.length) (hI : Inv m0 p m) :
    Inv m0 p (appendStep grow p m e) ∧
    (appendStep grow p m e).elems p = m.elems p ++ stepContrib m e := by
  cases e with
  | nilPtr => exact ⟨hI, by simp [appendStep, stepContrib]⟩
  | nil => exact ⟨hI, by simp [appendStep, stepContrib, Value.isNil]⟩
  | ptr q => exact push_inv grow m0 m p _ hp hI
  | plain tag msg => exact push_inv grow m0 m p _ hp hI
  | errorString msg => exact push_inv grow m0 m p _ hp hI
  | chain s => exact push_inv grow m0 m p _ hp hI

theorem Inv.refl (m0 : Memory) (p : Nat) (hv : (m0.getErr p).Errors.valid m0 = true) :
    Inv m0 p m0 :=
  { errors_length := rfl
    others := fun _ _ => rfl
    format := rfl
    frame := ⟨Nat.le_refl _, fun _ _ => ⟨rfl, fun _ _ => rfl⟩⟩
    valid := hv
    located := Or.inl ⟨rfl, rfl, rfl, Nat.le_refl _⟩
    grows := ⟨[], by simp⟩ }

theorem elems_eq_of_clear {m0 m : Memory} {p q : Nat} (hI : Inv m0 p m) (hq : q ≠ p)
    (hv : (m0.getErr q).Errors.valid m0 = true)
    (hc : clearOfSpare (m0.getErr p).Errors (m0.getErr q).Errors = true) :
    m.elems q = m0.elems q := by
  unfold Memory.elems
  rw [hI.others q hq]
  apply readSlice_congr
  intro i hi1 hi2
  rw [Slice.valid_iff] at hv
  obtain ⟨hN, hF⟩ := hI.frame
  have hpos : 0 < (m0.getErr q).Errors.len := by omega
  have hcells : (m0.getErr q).Errors.off + (m0.getErr q).Errors.cap
      ≤ (m0.cells (m0.getErr q).Errors.arr).length := by
    rcases hv.2 with h | h
    · omega
    · exact h
  have harr : (m0.getErr q).Errors.arr < m0.arrays.length := cells_length_pos (by omega)
  apply (hF _ harr).2
  simp only [clearOfSpare, Bool.or_eq_true, decide_eq_true_eq] at hc
  rcases hc with ((hc | hc) | hc) | hc
  · omega
  · exact Or.inl hc
  · exact Or.inr (Or.inl (by omega))
  · exact Or.inr (Or.inr (by omega))

theorem foldl_inv (grow : Nat → Nat → Nat) (m0 : Memory) (p : Nat)
    (hp : p < m0.errors.length) (errs : List Value) (m : Memory) (hI : Inv m0 p m) :
    Inv m0 p (errs.foldl (appendStep grow p) m) := by
  induction errs generalizing m with
  | nil => exact hI
  | cons e es ih => exact ih _ (appendStep_inv grow m0 m p e hp hI).1

theorem foldl_keeps (grow : Nat → Nat → Nat) (m0 : Memory) (p : Nat)
    (hp : p < m0.errors.length) (errs : List Value) (m : Memory) (hI : Inv m0 p m)
    (x : Value) (hx : x ∈ m.elems p) : x ∈ (errs.foldl (appendStep grow p) m).elems p := by
  induction errs generalizing m with
  | nil => exact hx
  | cons e es ih =>
    obtain ⟨hI', he⟩ := appendStep_inv grow m0 m p e hp hI
    exact ih _ hI' (by rw [he]; exact List.mem_append_left _ hx)

theorem stepContrib_of_isPlain (m : Memory) {e : Value} (h : e.isPlain = true) :
    stepContrib m e = [e] := by
  cases e <;> simp_all [stepContrib, Value.isPlain, Value.isNil, Value.isComposite]

theorem foldl_never_swallows (grow : Nat → Nat → Nat) (m0 : Memory) (p : Nat)
    (hp : p < m0.errors.length) (errs : List Value)
    (hadds : ∀ q, Value.ptr q ∈ errs → (m0.getErr q).Errors.valid m0 = true ∧
      clearOfSpare (m0.getErr p).Errors (m0.getErr q).Errors = true)
    (m : Memory) (hI : Inv m0 p m) :
    (∀ e ∈ errs, e.isPlain = true → e ∈ (errs.foldl (appendStep grow p) m).elems p) ∧
    (∀ q, Value.ptr q ∈ errs →
      ∀ x ∈ m0.elems q, x ∈ (errs.foldl (appendStep grow p) m).elems p) := by
  induction errs generalizing m with
  | nil => simp
  | cons e es ih =>
    obtain ⟨hI', he⟩ := appendStep_inv grow m0 m p e hp hI
    obtain ⟨ih1, ih2⟩ := ih (fun q hq => hadds q (List.mem_cons_of_mem _ hq)) _ hI'
    have hstep : ∀ x ∈ stepContrib m e,
        x ∈ (List.foldl (appendStep grow p) (appendStep grow p m e) es).elems p := by
      intro x hx
      exact foldl_keeps grow m0 p hp es _ hI' x (by rw [he]; exact List.mem_append_right _ hx)
    constructor
    · intro e' he' hpl
      rcases List.mem_cons.1 he' with rfl | h
      · exact hstep _ (by rw [stepContrib_of_isPlain m hpl]; simp)
      · exact ih1 e' h hpl
    · intro q hq x hx
      rcases List.mem_cons.1 hq with h | h
      · subst h
        apply hstep
        show x ∈ m.elems q
        by_cases hqp : q = p
        · subst hqp
          obtain ⟨ys, hys⟩ := hI.grows
          rw [hys]
          exact List.mem_append_left _ hx
        · obtain ⟨hv, hc⟩ := hadds q (List.mem_cons_self _ _)
          rw [elems_eq_of_clear hI hqp hv hc]
          exact hx
      · exact ih2 q h x hx

theorem foldl_elems (grow : Nat → Nat → Nat) (m0 : Memory) (p : Nat)
    (hp : p < m0.errors.length) (errs : List Value)
    (hadds : ∀ q, Value.ptr q ∈ errs → q ≠ p ∧ (m0.getErr q).Errors.valid m0 = true ∧
      clearOfSpare (m0.getErr p).Errors (m0.getErr q).Errors = true)
    (m : Memory) (hI : Inv m0 p m) :
    (errs.foldl (appendStep grow p) m).elems p
      = m.elems p ++ (errs.map (stepContrib m0)).flatten := by
  induction errs generalizing m with
  | nil => simp
  | cons e es ih =>
    obtain ⟨hI', he⟩ := appendStep_inv grow m0 m p e hp hI
    have hc : stepContrib m e = stepContrib m0 e := by
      cases e with
      | ptr q =>
        obtain ⟨hqp, hv, hcl⟩ := hadds q (List.mem_cons_self _ _)
        exact elems_eq_of_clear hI hqp hv hcl
      | _ => rfl
    rw [List.foldl_cons, ih (fun q hq => hadds q (List.mem_cons_of_mem _ hq)) _ hI', he, hc]
    simp [List.append_assoc]

theorem getErr_alloc_self (m : Memory) :
    m.alloc.1.getErr m.alloc.2 = { Errors := nilSlice, ErrorFormat := none } := by
  simp [Memory.alloc, Memory.getErr, List.getD_eq_getElem?_getD]

theorem getErr_alloc_of_lt (m : Memory) (q : Nat) (hq : q < m.errors.length) :
    m.alloc.1.getErr q = m.getErr q := by
  simp [Memory.alloc, Memory.getErr, List.getD_eq_getElem?_getD, List.getElem?_append_left hq]

theorem alloc_lt (m : Memory) : m.alloc.2 < m.alloc.1.errors.length := by
  simp [Memory.alloc]

theorem readSlice_alloc (m : Memory) (s : Slice) : m.alloc.1.readSlice s = m.readSlice s := rfl

theorem valid_alloc (m : Memory) (s : Slice) : s.valid m.alloc.1 = s.valid m := rfl

theorem elems_alloc_of_lt (m : Memory) (q : Nat) (hq : q < m.errors.length) :
    m.alloc.1.elems q = m.elems q := by
  unfold Memory.elems
  rw [getErr_alloc_of_lt m q hq, readSlice_alloc]

theorem elems_alloc_self (m : Memory) : m.alloc.1.elems m.alloc.2 = [] := by
  unfold Memory.elems
  rw [getErr_alloc_self]
  simp [Memory.readSlice, nilSlice]

theorem Inv_alloc (m : Memory) : Inv m.alloc.1 m.alloc.2 m.alloc.1 := by
  apply Inv.refl
  rw [getErr_alloc_self]
  rfl

theorem stepContrib_alloc (m : Memory) {e : Value} (he : e.validIn m = true) :
    stepContrib m.alloc.1 e = stepContrib m e := by
  cases e with
  | ptr q =>
    simp only [Value.validIn, Bool.and_eq_true, decide_eq_true_eq] at he
    exact elems_alloc_of_lt m q he.1
  | _ => rfl

/-- The loop of `Append` run on a freshly allocated struct. -/
theorem foldl_fresh (grow : Nat → Nat → Nat) (m : Memory) (errs : List Value)
    (hadds : ∀ e ∈ errs, e.validIn m = true) :
    (errs.foldl (appendStep grow m.alloc.2) m.alloc.1).elems m.alloc.2
        = (errs.map (stepContrib m)).flatten ∧
    ((errs.foldl (appendStep grow m.alloc.2) m.alloc.1).getErr m.alloc.2).ErrorFormat
        = none := by
  have hq : ∀ q, Value.ptr q ∈ errs → q ≠ m.alloc.2 ∧
      (m.alloc.1.getErr q).Errors.valid m.alloc.1 = true ∧
      clearOfSpare (m.alloc.1.getErr m.alloc.2).Errors (m.alloc.1.getErr q).Errors = true := by
    intro q hq
    have hv := hadds _ hq
    simp only [Value.validIn, Bool.and_eq_true, decide_eq_true_eq] at hv
    refine ⟨?_, ?_, ?_⟩
    · show q ≠ m.errors.length
      omega
    · rw [getErr_alloc_of_lt m q hv.1, valid_alloc]
      exact hv.2
    · rw [getErr_alloc_self]
      simp [clearOfSpare, nilSlice]
  constructor
  · rw [foldl_elems grow m.alloc.1 m.alloc.2 (alloc_lt m) errs hq _ (Inv_alloc m),
      elems_alloc_self, List.nil_append]
    congr 1
    apply List.map_congr_left
    intro e he
    exact stepContrib_alloc m (hadds e he)
  · rw [(foldl_inv grow m.alloc.1 m.alloc.2 (alloc_lt m) errs _ (Inv_alloc m)).format,
      getErr_alloc_self]

/-- The element sequence and the formatter of the result of the in-place `Append`, for
additions that share no storage with the base. -/
theorem Append_elems (grow : Nat → Nat → Nat) (m : Memory) (err : Value) (errs : List Value)
    (hbase : err.validIn m = true) (hadds : ∀ e ∈ errs, e.validIn m = true)
    (hsep : ∀ e ∈ errs, separateFrom m err e = true) :
    (Append grow m err errs).1.elems (Append grow m err errs).2
        = stepContrib m err ++ (errs.map (stepContrib m)).flatten ∧
    ((Append grow m err errs).1.getErr (Append grow m err errs).2).ErrorFormat
        = (match err with
          | .ptr p => (m.getErr p).ErrorFormat
          | _ => none) := by
  cases err with
  | ptr p =>
    simp only [Value.validIn, Bool.and_eq_true, decide_eq_true_eq] at hbase
    have hI := Inv.refl m p hbase.2
    have hq : ∀ q, Value.ptr q ∈ errs → q ≠ p ∧ (m.getErr q).Errors.valid m = true ∧
        clearOfSpare (m.getErr p).Errors (m.getErr q).Errors = true := by
      intro q hq
      have hv := hadds _ hq
      have hs := hsep _ hq
      simp only [Value.validIn, Bool.and_eq_true, decide_eq_true_eq] at hv
      simp only [separateFrom, Bool.and_eq_true, decide_eq_true_eq] at hs
      exact ⟨hs.1, hv.2, hs.2⟩
    exact ⟨foldl_elems grow m p hbase.1 errs hq m hI,
      (foldl_inv grow m p hbase.1 errs m hI).format⟩
  | nilPtr =>
    have := foldl_fresh grow m errs hadds
    simpa [Append, appendPtr, stepContrib] using this
  | nil =>
    have := foldl_fresh grow m errs hadds
    simpa [Append, appendPtr, stepContrib, Value.isNil] using this
  | plain tag msg =>
    have := foldl_fresh grow m (.plain tag msg :: errs) (by
      intro e he
      rcases List.mem_cons.1 he with rfl | h
      · rfl
      · exact hadds e h)
    simpa [Append, appendPtr, stepContrib, Value.isNil] using this
  | errorString msg =>
    have := foldl_fresh grow m (.errorString msg :: errs) (by
      intro e he
      rcases List.mem_cons.1 he with rfl | h
      · rfl
      · exact hadds e h)
    simpa [Append, appendPtr, stepContrib, Value.isNil] using this
  | chain s =>
    have := foldl_fresh grow m (.chain s :: errs) (by
      intro e he
      rcases List.mem_cons.1 he with rfl | h
      · rfl
      · exact hadds e h)
    simpa [Append, appendPtr, stepContrib, Value.isNil] using this

theorem mem_flatten_stepContrib (m : Memory) (errs : List Value) (e x : Value)
    (he : e ∈ errs) (hx : x ∈ stepContrib m e) : x ∈ (errs.map (stepContrib m)).flatten :=
  List.mem_flatten.2 ⟨stepContrib m e, List.mem_map.2 ⟨e, he, rfl⟩, hx⟩

theorem separateFrom_of_not_ptr (m : Memory) (err e : Value) (h : ∀ p, err ≠ .ptr p) :
    separateFrom m err e = true := by
  cases err with
  | ptr p => exact absurd rfl (h p)
  | _ => rfl

/-- C4, as amended.  `Append` on memory never swallows a failure when no composite addition
has its elements stored in the spare capacity of the base's backing array: for a base and
additions that are consistent with the memory and satisfy this condition, every plain input
(the base or an addition) is a member of the element sequence of the result, and so is every
element that a non-nil composite input (the base or an addition) has when `Append` is
called.  An addition may be the base itself. -/
theorem Append_in_place_never_swallows (grow : Nat → Nat → Nat) (m : Memory) (err : Value)
    (errs : List Value) (hbase : err.validIn m = true)
    (hadds : ∀ e ∈ errs, e.validIn m = true)
    (hclear : ∀ e ∈ errs, clearOf m err e = true) :
    (err.isPlain = true →
      err ∈ (Append grow m err errs).1.elems (Append grow m err errs).2) ∧
    (∀ e ∈ errs, e.isPlain = true →
      e ∈ (Append grow m err errs).1.elems (Append grow m err errs).2) ∧
    (∀ p, err = .ptr p → ∀ x ∈ m.elems p,
      x ∈ (Append grow m err errs).1.elems (Append grow m err errs).2) ∧
    (∀ q, Value.ptr q ∈ errs → ∀ x ∈ m.elems q,
      x ∈ (Append grow m err errs).1.elems (Append grow m err errs).2) := by
  by_cases hptr : ∃ p, err = .ptr p
  · obtain ⟨p, rfl⟩ := hptr
    simp only [Value.validIn, Bool.and_eq_true, decide_eq_true_eq] at hbase
    have hI := Inv.refl m p hbase.2
    have hq : ∀ q, Value.ptr q ∈ errs → (m.getErr q).Errors.valid m = true ∧
        clearOfSpare (m.getErr p).Errors (m.getErr q).Errors = true := by
      intro q hq
      have hv := hadds _ hq
      simp only [Value.validIn, Bool.and_eq_true, decide_eq_true_eq] at hv
      exact ⟨hv.2, hclear _ hq⟩
    obtain ⟨h1, h2⟩ := foldl_never_swallows grow m p hbase.1 errs hq m hI
    refine ⟨fun h => by simp [Value.isPlain, Value.isComposite] at h, h1, ?_, h2⟩
    intro p' hp' x hx
    cases hp'
    exact foldl_keeps grow m p hbase.1 errs m hI x hx
  · have hnp : ∀ p, err ≠ .ptr p := fun p h => hptr ⟨p, h⟩
    obtain ⟨hE, _⟩ := Append_elems grow m err errs hbase hadds
      (fun e _ => separateFrom_of_not_ptr m err e hnp)
    rw [hE]
    refine ⟨fun h => ?_, fun e he h => ?_, fun p hp => absurd hp (hnp p), fun q hq x hx => ?_⟩
    · rw [stepContrib_of_isPlain m h]
      simp
    · exact List.mem_append_right _
        (mem_flatten_stepContrib m errs e e he (by rw [stepContrib_of_isPlain m h]; simp))
    · exact List.mem_append_right _ (mem_flatten_stepContrib m errs (.ptr q) x hq hx)

/-- Witness for C4 as amended: the base has spare capacity, one addition has a backing array
of its own and another is the base itself; the element `b` of the first is kept. -/
theorem Append_in_place_never_swallows_witness :
    Value.plain 2 "b" ∈
      (Append growDouble separateArrays (.ptr 0) [.plain 9 "x", .ptr 1, .ptr 0]).1.elems
        (Append growDouble separateArrays (.ptr 0) [.plain 9 "x", .ptr 1, .ptr 0]).2 :=
  (Append_in_place_never_swallows growDouble separateArrays (.ptr 0)
    [.plain 9 "x", .ptr 1, .ptr 0] (by decide) (by decide) (by decide)).2.2.2
    1 (by decide) (.plain 2 "b") (by decide)

/-- Counterexample to C4 as stated.  With one backing array `s = [a, b, c]`, the base
`&Error{Errors: s[:1]}` and the additions `x` and `&Error{Errors: s[1:]}` (all consistent
with the memory), `b` is an element of a non-nil composite input, yet the result has the
elements `[a, x, x, c]`: appending `x` in place has overwritten `b` before the second
addition is read. -/
theorem Append_swallows_shared_array :
    Value.validIn sharedArray (.ptr 0) = true ∧
    Value.validIn sharedArray (.ptr 1) = true ∧
    sharedArray.elems 0 = [.plain 1 "a"] ∧
    sharedArray.elems 1 = [.plain 2 "b", .plain 3 "c"] ∧
    (Append growDouble sharedArray (.ptr 0) [.plain 9 "x", .ptr 1]).1.elems
        (Append growDouble sharedArray (.ptr 0) [.plain 9 "x", .ptr 1]).2
      = [.plain 1 "a", .plain 9 "x", .plain 9 "x", .plain 3 "c"] ∧
    Value.plain 2 "b" ∉
      (Append growDouble sharedArray (.ptr 0) [.plain 9 "x", .ptr 1]).1.elems
        (Append growDouble sharedArray (.ptr 0) [.plain 9 "x", .ptr 1]).2 := by
  decide

end heap

/-! ## The value-level `Append` and `Append` on memory -/

theorem contrib_lift (abs : heap.Value → GoError)
    (habs : ∀ v : heap.Value, v.isPlain = true → (abs v).isPlain = true)
    (m : heap.Memory) (e : heap.Value) :
    contrib (heap.lift abs m e) = (heap.stepContrib m e).map abs := by
  cases e with
  | nil => rfl
  | nilPtr => rfl
  | ptr q => rfl
  | plain tag msg => exact contrib_of_isPlain (habs _ rfl)
  | errorString msg => exact contrib_of_isPlain (habs _ rfl)
  | chain sl => exact contrib_of_isPlain (habs _ rfl)

theorem flatten_map_contrib_lift (abs : heap.Value → GoError)
    (habs : ∀ v : heap.Value, v.isPlain = true → (abs v).isPlain = true)
    (m : heap.Memory) (errs : List heap.Value) :
    ((errs.map (heap.lift abs m)).map contrib).flatten
      = ((errs.map (heap.stepContrib m)).flatten).map abs := by
  induction errs with
  | nil => rfl
  | cons e es ih =>
    simp only [List.map_cons, List.flatten_cons, List.map_append, contrib_lift abs habs, ih]

theorem shallow_isPlain (v : heap.Value) (h : v.isPlain = true) :
    (heap.shallow v).isPlain = true := by
  cases v <;> simp_all [heap.shallow, heap.Value.isPlain, heap.Value.isNil,
    heap.Value.isComposite, GoError.isPlain, GoError.isNil, GoError.isComposite]

/-- The value-level `Append` agrees with `Append` on memory when no addition is aliased to
the base: for arguments that are consistent with the memory, where no addition is the base
itself or has its elements in the spare capacity of the base, the value-level `Append` of
the arguments read as values returns the composite that `Append` on memory leaves at the
address it returns, with the same element sequence and the same formatter.  The elements
are translated by any `abs` that keeps plain failures plain. -/
theorem Append_refines (grow : Nat → Nat → Nat) (abs : heap.Value → GoError)
    (habs : ∀ v : heap.Value, v.isPlain = true → (abs v).isPlain = true)
    (m : heap.Memory) (err : heap.Value) (errs : List heap.Value)
    (hbase : err.validIn m = true) (hadds : ∀ e ∈ errs, e.validIn m = true)
    (hsep : ∀ e ∈ errs, heap.separateFrom m err e = true) :
    Append (heap.lift abs m err) (errs.map (heap.lift abs m))
      = some
        { Errors :=
            ((heap.Append grow m err errs).1.elems (heap.Append grow m err errs).2).map abs
          ErrorFormat :=
            ((heap.Append grow m err errs).1.getErr (heap.Append grow m err errs).2).ErrorFormat
        } := by
  obtain ⟨hE, hF⟩ := heap.Append_elems grow m err errs hbase hadds hsep
  obtain ⟨r, hr⟩ := Append_isSome (heap.lift abs m err) (errs.map (heap.lift abs m))
  have hErrors := Append_Errors hr
  rw [contrib_lift abs habs, flatten_map_contrib_lift abs habs, ← List.map_append, ← hE]
    at hErrors
  have hFormat : r.ErrorFormat
      = ((heap.Append grow m err errs).1.getErr (heap.Append grow m err errs).2).ErrorFormat := by
    rw [hF]
    cases err with
    | ptr q =>
      obtain ⟨r', hr', hf⟩ := Append_ErrorFormat_ptr ((m.elems q).map abs)
        (m.getErr q).ErrorFormat (errs.map (heap.lift abs m))
      have : heap.lift abs m (.ptr q) = .ptr ((m.elems q).map abs) (m.getErr q).ErrorFormat :=
        rfl
      rw [this, hr'] at hr
      cases hr
      exact hf
    | nil =>
      obtain ⟨r', hr', hf⟩ := @Append_ErrorFormat_none (heap.lift abs m .nil)
        (fun _ _ h => by cases h) (errs.map (heap.lift abs m))
      rw [hr'] at hr
      cases hr
      exact hf
    | nilPtr =>
      obtain ⟨r', hr', hf⟩ := @Append_ErrorFormat_none (heap.lift abs m .nilPtr)
        (fun _ _ h => by cases h) (errs.map (heap.lift abs m))
      rw [hr'] at hr
      cases hr
      exact hf
    | plain tag msg =>
      have hpl := habs (.plain tag msg) rfl
      obtain ⟨r', hr', hf⟩ := @Append_ErrorFormat_none (heap.lift abs m (.plain tag msg))
        (fun es fn h => by
          have h' : abs (.plain tag msg) = .ptr es fn := h
          rw [h'] at hpl
          simp [GoError.isPlain, GoError.isComposite] at hpl)
        (errs.map (heap.lift abs m))
      rw [hr'] at hr
      cases hr
      exact hf
    | errorString msg =>
      have hpl := habs (.errorString msg) rfl
      obtain ⟨r', hr', hf⟩ := @Append_ErrorFormat_none
        (heap.lift abs m (.errorString msg))
        (fun es fn h => by
          have h' : abs (.errorString msg) = .ptr es fn := h
          rw [h'] at hpl
          simp [GoError.isPlain, GoError.isComposite] at hpl)
        (errs.map (heap.lift abs m))
      rw [hr'] at hr
      cases hr
      exact hf
    | chain sl =>
      have hpl := habs (.chain sl) rfl
      obtain ⟨r', hr', hf⟩ := @Append_ErrorFormat_none (heap.lift abs m (.chain sl))
        (fun es fn h => by
          have h' : abs (.chain sl) = .ptr es fn := h
          rw [h'] at hpl
          simp [GoError.isPlain, GoError.isComposite] at hpl)
        (errs.map (heap.lift abs m))
      rw [hr'] at hr
      cases hr
      exact hf
  rw [hr]
  cases r
  simp only at hErrors hFormat
  rw [hErrors, hFormat]

/-- An instance of `Append_refines`: a base with spare capacity and an addition with a
backing array of its own. -/
theorem Append_refines_witness :
    Append (heap.lift heap.shallow heap.separateArrays (.ptr 0))
        ([heap.Value.plain 9 "x", .ptr 1].map (heap.lift heap.shallow heap.separateArrays))
      = some
        { Errors :=
            ((heap.Append heap.growDouble heap.separateArrays (.ptr 0)
                [.plain 9 "x", .ptr 1]).1.elems
              (heap.Append heap.growDouble heap.separateArrays (.ptr 0)
                [.plain 9 "x", .ptr 1]).2).map heap.shallow
          ErrorFormat :=
            ((heap.Append heap.growDouble heap.separateArrays (.ptr 0)
                [.plain 9 "x", .ptr 1]).1.getErr
              (heap.Append heap.growDouble heap.separateArrays (.ptr 0)
                [.plain 9 "x", .ptr 1]).2).ErrorFormat } :=
  Append_refines heap.growDouble heap.shallow shallow_isPlain heap.separateArrays (.ptr 0)
    [.plain 9 "x", .ptr 1] (by decide) (by decide) (by decide)

end multierror
